import Mathlib

/-!
Verification of the shadow-casting engine of the QWERA toolbox
(`qwera_tools/algorithms/TOOL_2_Windshade_Calculator.py`).

The Python floats of the source are modelled as exact rationals (`ℚ`).
Float literals of the source (`1e-9`, `0.5`, `1e-5`, `-1e38`, `1e-6`)
become the corresponding rational constants.  Because the library's
rational arithmetic (`Rat.add`, `Rat.mul`, ...) is kernel-computable,
every definition below is executable and concrete scenarios are settled
by `decide`.

The read-only input rasters (`Z`, the nodata mask) are modelled as
functions `ℕ → ℕ → _`; the mutable `shadow` numpy array is modelled as a
`List (List Bool)` updated functionally, which mirrors the in-place
element assignment of the source.
-/

namespace Windshade

/-- Python's `round` (round half to even, "banker's rounding"), as used in
`int(round(Smin / strip_w))` of the source. -/
def pyRound (q : ℚ) : ℤ :=
  let f := ⌊q⌋
  let r := q - (f : ℚ)
  if r < mkRat 1 2 then f
  else if mkRat 1 2 < r then f + 1
  else if Even f then f else f + 1

/-- The source's `dir_eps = 1e-9`, the threshold under which a perpendicular
increment is snapped to exactly zero. -/
def dirEps : ℚ := mkRat 1 (10 ^ 9)

/-- Source lines: `if abs(dS_col) < dir_eps: dS_col = 0.0` (same for `dS_row`). -/
def snap (q : ℚ) : ℚ := if |q| < dirEps then 0 else q

/-- The source's horizon initialisation `horizon = -1e38` (a finite stand-in
for minus infinity). -/
def horizonInit : ℚ := -((10 : ℚ) ^ 38)

/-- The source's metric tolerance `eps_m = 1e-5 * max(cellx, celly)`. -/
def epsOf (cellx celly : ℚ) : ℚ := mkRat 1 (10 ^ 5) * max cellx celly

/-- Inverse of a rational, computed through `mkRat` so that it is
kernel-reducible (the library `Rat.inv` is `irreducible`); `qinv 0 = 0`. -/
def qinv (q : ℚ) : ℚ := mkRat (Int.sign q.num * (q.den : ℤ)) q.num.natAbs

/-- Division on `ℚ` through `qinv`; agrees with `·/·` (`qdiv_eq_div`). -/
def qdiv (a b : ℚ) : ℚ := a * qinv b

/-! ## Mutable boolean grid (the `shadow` numpy array) -/

/-- Read `m[i][j]`, out-of-range reads giving `false`. -/
def mget (m : List (List Bool)) (i j : ℕ) : Bool := (m.getD i []).getD j false

/-- Write `m[i][j] = v` (no-op out of range, which never happens in the scan). -/
def mset (m : List (List Bool)) (i j : ℕ) (v : Bool) : List (List Bool) :=
  m.set i ((m.getD i []).set j v)

/-- `np.zeros((ny, nx), dtype=bool)`. -/
def mkMask (ny nx : ℕ) : List (List Bool) :=
  List.replicate ny (List.replicate nx false)

/-- Materialise a functional grid into a concrete array (numpy produces a
fresh array for every whole-array expression of the source). -/
def mtab (ny nx : ℕ) (f : ℕ → ℕ → Bool) : List (List Bool) :=
  (List.range ny).map fun i => (List.range nx).map fun j => f i j

/-- The Python `range(lo, hi+1)` over integers (empty when `hi < lo`). -/
def intRange (lo hi : ℤ) : List ℤ :=
  (List.range (hi + 1 - lo).toNat).map fun (t : ℕ) => lo + (t : ℤ)

/-- A mask is an `ny` x `nx` array. -/
def MaskShape (ny nx : ℕ) (m : List (List Bool)) : Prop :=
  m.length = ny ∧ ∀ r ∈ m, r.length = nx

/-! ## Solar geometry and strip geometry

The source computes `azr = radians((450 - az) % 360)`, `ux = -cos(azr)`,
`uy = -sin(azr)`, `tan_alt = tan(radians(alt))`.  Since trigonometric
functions are transcendental, the embedding takes the sun unit vector
`(ux, uy)` and `tan_alt` as the rational inputs of the scan; everything
downstream of the trigonometric evaluation is embedded verbatim. -/

structure ScanParams where
  ny : ℕ
  nx : ℕ
  Z : ℕ → ℕ → ℚ
  nd : ℕ → ℕ → Bool
  cellx : ℚ
  celly : ℚ
  ux : ℚ
  uy : ℚ
  tanAlt : ℚ

/-- `dL_col = vx_col_x * ux + vx_col_y * uy` with `(vx_col_x, vx_col_y) = (cellx, 0)`. -/
def dLcol (p : ScanParams) : ℚ := p.cellx * p.ux

/-- `dL_row = vx_row_x * ux + vx_row_y * uy` with `(vx_row_x, vx_row_y) = (0, -celly)`. -/
def dLrow (p : ScanParams) : ℚ := -p.celly * p.uy

/-- `dS_col = vx_col_x * upx + vx_col_y * upy` with `(upx, upy) = (-uy, ux)`,
then snapped to zero when below `dir_eps`. -/
def dScol (p : ScanParams) : ℚ := snap (p.cellx * (-p.uy))

/-- `dS_row = vx_row_x * upx + vx_row_y * upy = -celly * ux`, snapped. -/
def dSrow (p : ScanParams) : ℚ := snap (-p.celly * p.ux)

/-- `strip_w = max(1e-9, min(|dS_col| or inf, |dS_row| or inf))`.  The case
where both increments are zero gives `inf` in the source (only reachable for
degenerate sub-nanometre rasters); it is mapped to `dirEps` here and excluded
by hypothesis in every theorem that needs the strip width. -/
def stripW (p : ScanParams) : ℚ :=
  if dScol p = 0 then
    (if dSrow p = 0 then dirEps else max dirEps |dSrow p|)
  else if dSrow p = 0 then max dirEps |dScol p|
  else max dirEps (min |dScol p| |dSrow p|)

/-- Perpendicular ("strip") coordinate `S_ij = i * dS_row + j * dS_col`. -/
def cellS (p : ScanParams) (i j : ℕ) : ℚ := (i : ℚ) * dSrow p + (j : ℚ) * dScol p

/-- Along-light coordinate `L_ij = i * dL_row + j * dL_col`. -/
def cellL (p : ScanParams) (i j : ℕ) : ℚ := (i : ℚ) * dLrow p + (j : ℚ) * dLcol p

/-- The `S` values of the four DEM corners. -/
def cornerS (p : ScanParams) : List ℚ :=
  [cellS p 0 0, cellS p 0 (p.nx - 1), cellS p (p.ny - 1) 0, cellS p (p.ny - 1) (p.nx - 1)]

def sMinQ (p : ScanParams) : ℚ := ((cornerS p).tail).foldl min ((cornerS p).headD 0)
def sMaxQ (p : ScanParams) : ℚ := ((cornerS p).tail).foldl max ((cornerS p).headD 0)

/-- `s_idx_min = int(round(Smin / strip_w)) - 1`. -/
def sIdxMin (p : ScanParams) : ℤ := pyRound (qdiv (sMinQ p) (stripW p)) - 1

/-- `s_idx_max = int(round(Smax / strip_w)) + 1`. -/
def sIdxMax (p : ScanParams) : ℤ := pyRound (qdiv (sMaxQ p) (stripW p)) + 1

/-! ## Strip cell collection -/

/-- A collected cell `(L_ij, i, j)` exactly as appended to `cells_i`. -/
abbrev Cell := ℚ × ℕ × ℕ

/-- The candidate column indices scanned for row `i` of a strip: a narrow
window around the exact solution `j_star` when `|dS_col| > dir_eps`, else the
whole row unless the row is pre-rejected by its `S` value. -/
def rowWindow (p : ScanParams) (sTarget halfW : ℚ) (i : ℕ) : List ℤ :=
  if dirEps < |dScol p| then
    let jstar := qdiv (sTarget - (i : ℚ) * dSrow p) (dScol p)
    let j0 : ℤ := max 0 ⌊jstar - 1⌋
    let j1 : ℤ := min ((p.nx : ℤ) - 1) ⌈jstar + 1⌉
    intRange j0 j1
  else
    if halfW < |(i : ℚ) * dSrow p - sTarget| then []
    else intRange 0 ((p.nx : ℤ) - 1)

/-- The body of the inner collection loop: keep cell `(i, jz)` when `jz` is
a valid column, `|S_ij - S_target| <= half_w` and the cell is not nodata. -/
def stripCellAt (p : ScanParams) (sTarget halfW : ℚ) (i : ℕ) (jz : ℤ) :
    Option Cell :=
  if 0 ≤ jz ∧ jz < (p.nx : ℤ) then
    let j := jz.toNat
    if |cellS p i j - sTarget| ≤ halfW ∧ ¬ p.nd i j = true then
      some (cellL p i j, i, j)
    else none
  else none

/-- The `cells_i` list of strip `s_idx`: rows in order, candidate columns in
order, keeping cells with `|S_ij - S_target| <= half_w` that are not nodata. -/
def stripCells (p : ScanParams) (s : ℤ) : List Cell :=
  let sTarget := (s : ℚ) * stripW p
  let halfW := mkRat 1 2 * stripW p
  (List.range p.ny).flatMap fun i =>
    (rowWindow p sTarget halfW i).filterMap (stripCellAt p sTarget halfW i)

/-- Stable ascending sort by `L` (`cells_i.sort(key=lambda t: t[0])`;
Python's sort is stable, which the index tie-break reproduces exactly). -/
def cellRel (a b : ℕ × Cell) : Prop :=
  a.2.1 < b.2.1 ∨ (a.2.1 = b.2.1 ∧ a.1 ≤ b.1)

instance : DecidableRel cellRel := fun a b => by
  unfold cellRel; infer_instance

instance : IsTotal (ℕ × Cell) cellRel := by
  constructor
  intro a b
  rcases lt_trichotomy a.2.1 b.2.1 with h | h | h
  · exact Or.inl (Or.inl h)
  · rcases le_total a.1 b.1 with h2 | h2
    · exact Or.inl (Or.inr ⟨h, h2⟩)
    · exact Or.inr (Or.inr ⟨h.symm, h2⟩)
  · exact Or.inr (Or.inl h)

instance : IsTrans (ℕ × Cell) cellRel := by
  constructor
  intro a b c hab hbc
  rcases hab with h1 | ⟨e1, l1⟩
  · rcases hbc with h2 | ⟨e2, _⟩
    · exact Or.inl (h1.trans h2)
    · exact Or.inl (e2 ▸ h1)
  · rcases hbc with h2 | ⟨e2, l2⟩
    · exact Or.inl (e1 ▸ h2)
    · exact Or.inr ⟨e1.trans e2, l1.trans l2⟩

def sortCells (cs : List Cell) : List Cell :=
  (List.insertionSort cellRel cs.enum).map fun kc => kc.2

/-! ## Horizon sweep -/

/-- The projected target height `T = z + tan_alt * d` of a cell. -/
def targetT (Z : ℕ → ℕ → ℚ) (tanAlt L0 : ℚ) (c : Cell) : ℚ :=
  Z c.2.1 c.2.2 + tanAlt * (c.1 - L0)

/-- The value of the running horizon after sweeping a cell list from the
start value `h0`: the fold of `horizon = max(horizon, T)`. -/
def runMax (Z : ℕ → ℕ → ℚ) (tanAlt L0 h0 : ℚ) (cs : List Cell) : ℚ :=
  cs.foldl (fun h c => max h (targetT Z tanAlt L0 c)) h0

/-- The horizon-based classification loop of the source, one step per sorted
cell: mark shadow when `horizon > T - eps`, then raise the horizon to
`max(horizon, T)`, then honour the `maxd` cutoff (`break` after the first
cell with `d > maxd` when `maxd > 0`). -/
def horizonLoop (Z : ℕ → ℕ → ℚ) (tanAlt eps L0 maxd : ℚ) :
    List Cell → ℚ → List (List Bool) → List (List Bool)
  | [], _, m => m
  | c :: rest, horizon, m =>
    let T := targetT Z tanAlt L0 c
    let m1 := if T - eps < horizon then mset m c.2.1 c.2.2 true else m
    let h1 := max horizon T
    if 0 < maxd ∧ maxd < c.1 - L0 then m1
    else horizonLoop Z tanAlt eps L0 maxd rest h1 m1

/-! ## 1D ray-gap fill (the "1D closing along this strip")

The while-loop of the source fills every maximal run of `False` values that
is bounded by `True` on both sides and has length at most `gap_max`.  The
loop reads each run boundary before any mutation that could touch it (fills
happen strictly left of the scan position, and a filled run is always
followed by an originally-`True` cell), so the runs it fills are exactly the
bounded short runs of the ORIGINAL value sequence; `isFillRun`/`gapFilled`
state that characterisation directly.  The `n_vals >= 3` guard of the source
is subsumed: a bounded run needs `a >= 1` and `b + 1 <= n - 1`, hence
`n >= 3`. -/

def isFillRun (vals : List Bool) (g a b : ℕ) : Bool :=
  decide (1 ≤ a) && decide (a ≤ b) && decide (b + 1 < vals.length) &&
  decide (b + 1 ≤ a + g) &&
  vals.getD (a - 1) false && vals.getD (b + 1) false &&
  ((List.range (b + 1 - a)).all fun t => !vals.getD (a + t) false)

def gapFilled (vals : List Bool) (g k : ℕ) : Bool :=
  vals.getD k false ||
  ((List.range vals.length).any fun a => (List.range vals.length).any fun b =>
    decide (a ≤ k) && decide (k ≤ b) && isFillRun vals g a b)

/-- Write the filled values back (`shadow[i, j] = val`).  Writing is skipped
when the value is `false`: in that case the cell's current value is already
`false` (it was just read into `vals`), so the assignment is a no-op. -/
def gapFillStrip (g : ℕ) (cs : List Cell) (m : List (List Bool)) :
    List (List Bool) :=
  if g = 0 then m
  else
    let vals := cs.map fun c => mget m c.2.1 c.2.2
    cs.enum.foldl
      (fun acc kc =>
        if gapFilled vals g kc.1 then mset acc kc.2.2.1 kc.2.2.2 true else acc)
      m

/-! ## Per-strip processing and the strip fold -/

/-- One iteration of `for s_idx in range(s_idx_min, s_idx_max + 1)`. -/
def processStrip (p : ScanParams) (g : ℕ) (maxd : ℚ) (m : List (List Bool))
    (s : ℤ) : List (List Bool) :=
  let cs := stripCells p s
  if cs.isEmpty then m
  else
    let scs := sortCells cs
    let L0 := (scs.headD (0, 0, 0)).1
    let m1 := horizonLoop p.Z p.tanAlt (epsOf p.cellx p.celly) L0 maxd scs
      horizonInit m
    gapFillStrip g scs m1

/-- The raw strip-sweep: all strips processed in index order into a
zero-initialised mask. -/
def rawScan (p : ScanParams) (g : ℕ) (maxd : ℚ) : List (List Bool) :=
  (intRange (sIdxMin p) (sIdxMax p)).foldl (processStrip p g maxd)
    (mkMask p.ny p.nx)

/-! ## 2D morphology -/

/-- The neighbourhood offsets of `_binary_dilate`: the full 3x3 window, or
for `kernel_size == 2` the four windows `a | b | c | d` of the source, which
read `m[i-1][j-1], m[i-1][j], m[i][j-1], m[i][j]`. -/
def offsets (k : ℕ) : List (ℤ × ℤ) :=
  if k = 2 then [(-1, -1), (-1, 0), (0, -1), (0, 0)]
  else [(-1, -1), (-1, 0), (-1, 1), (0, -1), (0, 0), (0, 1), (1, -1), (1, 0), (1, 1)]

/-- Read a padded grid: out-of-grid cells are the `False` padding of
`np.pad(..., constant_values=False)`. -/
def getPad (ny nx : ℕ) (f : ℕ → ℕ → Bool) (iz jz : ℤ) : Bool :=
  if 0 ≤ iz ∧ iz < (ny : ℤ) ∧ 0 ≤ jz ∧ jz < (nx : ℤ) then f iz.toNat jz.toNat
  else false

/-- `_binary_dilate(m, k)` as a pointwise function. -/
def dilateF (ny nx k : ℕ) (f : ℕ → ℕ → Bool) (i j : ℕ) : Bool :=
  (offsets k).any fun o => getPad ny nx f ((i : ℤ) + o.1) ((j : ℤ) + o.2)

/-- Chebyshev adjacency of two indices (distance at most one), the reach of
one 3x3 dilation step; used to state what the morphology computes. -/
def adjIdx (x y : ℕ) : Prop := (x : ℤ) - y ≤ 1 ∧ (y : ℤ) - x ≤ 1

/-- The 2D closing of the source: `d1 = dilate(shadow, 3)`,
`e1 = ~dilate(~d1, 3)`, each materialised as a fresh array. -/
def mclose (ny nx : ℕ) (m : List (List Bool)) : List (List Bool) :=
  let d1 := mtab ny nx (dilateF ny nx 3 (mget m))
  mtab ny nx fun i j => ! dilateF ny nx 3 (fun a b => ! mget d1 a b) i j

/-! ## The full internal scan and the mask writer -/

/-- `_compute_shadow_octant` up to (and excluding) the output writing: strip
sweep with per-strip 1D gap fill, `shadow[mask_nd] = False`, 2D closing, and
the optional extra "fat shadow" dilation.  The `octants` and `edge_bias_px`
parameters are accepted exactly as in the source signature; the body never
reads them. -/
def computeShadowMask (p : ScanParams) (octants : ℕ) (maxd edgeBiasPx : ℚ)
    (gapMax : ℕ) (fatShadow : Bool) (fatKernel : ℕ) : List (List Bool) :=
  let m0 := rawScan p gapMax maxd
  let m1 := mtab p.ny p.nx fun i j => !p.nd i j && mget m0 i j
  let m2 := mclose p.ny p.nx m1
  if fatShadow then mtab p.ny p.nx (dilateF p.ny p.nx fatKernel (mget m2)) else m2

/-- `_write_shadow_mask`: `shadow[mask_nd] = False`; `mask_le = (~mask_nd) &
isfinite(Z) & (Z > 0)` (non-nodata heights are finite in the prepared DEM, so
`isfinite` is dropped); `out = where(shadow, c, 0)`; the class-5 override
`if abs(c - 5) < 1e-6: out[mask_le] = 5`; finally `out[mask_nd] = nodata`. -/
def writeShadowMask (Z : ℕ → ℕ → ℚ) (nd : ℕ → ℕ → Bool) (nodata : ℚ)
    (shadow : List (List Bool)) (c : ℚ) (i j : ℕ) : ℚ :=
  let sh := !nd i j && mget shadow i j
  let maskLe := !nd i j && decide (0 < Z i j)
  let out1 : ℚ := if sh then c else 0
  let out2 : ℚ := if |c - 5| < mkRat 1 (10 ^ 6) ∧ maskLe = true then 5 else out1
  if nd i j = true then nodata else out2

/-- `_compute_shadow_octant` end to end: internal scan followed by the mask
writer (`self._write_shadow_mask(dem_info, shadow, out_path, const_val)`). -/
def computeShadowOctant (p : ScanParams) (octants : ℕ) (maxd edgeBiasPx : ℚ)
    (gapMax : ℕ) (fatShadow : Bool) (fatKernel : ℕ) (nodata c : ℚ) :
    ℕ → ℕ → ℚ :=
  writeShadowMask p.Z p.nd nodata
    (computeShadowMask p octants maxd edgeBiasPx gapMax fatShadow fatKernel) c

/-- The nodata mask of `_prepare_dem`: `mask_nd = ~isfinite(Z) | (Z == nodata)`
(all rationals are finite, so only the sentinel comparison remains). -/
def ndOf (Z : ℕ → ℕ → ℚ) (nodata : ℚ) (i j : ℕ) : Bool := decide (Z i j = nodata)

/-- Modelled from the spec's words for comparison with `horizonLoop` only:
the horizon sweep "starting from −∞" as the specification states it, with the
infinite start encoded as `none`.  A `none` horizon is below every finite
`T - eps` and becomes `some T` after the first visited cell. -/
def horizonLoopInfStart (Z : ℕ → ℕ → ℚ) (tanAlt eps L0 maxd : ℚ) :
    List Cell → Option ℚ → List (List Bool) → List (List Bool)
  | [], _, m => m
  | c :: rest, hor, m =>
    let T := targetT Z tanAlt L0 c
    let m1 := match hor with
      | none => m
      | some hq => if T - eps < hq then mset m c.2.1 c.2.2 true else m
    let h1 : Option ℚ := match hor with
      | none => some T
      | some hq => some (max hq T)
    if 0 < maxd ∧ maxd < c.1 - L0 then m1
    else horizonLoopInfStart Z tanAlt eps L0 maxd rest h1 m1

/-! ## The SAGA backend adapter (the per-row loop of `processAlgorithm`)

Each table row either succeeds in the external backend or raises an
exception carrying a message; the loop state is the boolean `saga_enabled`.
On an exception the row always falls back to the internal scan, and
`saga_enabled` is cleared exactly when the lower-cased message matches
`"not found" in msg or "algorithm" in msg and "not" in msg and "found" in
msg or "sagang" in msg` (Python precedence: `A or (B and C and D) or E`). -/

/-- Is `pat` a prefix of `l`? -/
def listPre : List Char → List Char → Bool
  | [], _ => true
  | _ :: _, [] => false
  | c :: cs, d :: ds => c == d && listPre cs ds

/-- Is `pat` a contiguous substring of `l` (Python's `pat in msg`)? -/
def listSub (pat : List Char) : List Char → Bool
  | [] => listPre pat []
  | d :: ds => listPre pat (d :: ds) || listSub pat ds

def hasSub (pat s : String) : Bool := listSub pat.toList s.toList

/-- Python's `str.lower()` (ASCII case folding suffices for the phrases
tested by the source). -/
def strLower (s : String) : String := String.mk (s.toList.map Char.toLower)

/-- The unavailability heuristic applied to `msg = str(saga_err).lower()`. -/
def recognizeUnavailable (msg : String) : Bool :=
  let m := strLower msg
  hasSub "not found" m ||
    (hasSub "algorithm" m && hasSub "not" m && hasSub "found" m) ||
    hasSub "sagang" m

/-- One table row's external-backend outcome: success, or an exception with
its message text. -/
inductive RowOutcome where
  | ok : RowOutcome
  | failed : String → RowOutcome
deriving DecidableEq

/-- Which scan produced the row's mask. -/
inductive ScanKind where
  | sagaScan : ScanKind
  | internalScan : ScanKind
deriving DecidableEq

def rowFails : RowOutcome → Bool
  | .ok => false
  | .failed _ => true

def rowRecognized : RowOutcome → Bool
  | .ok => false
  | .failed m => recognizeUnavailable m

/-- The scan used for one row: the backend result is kept only when the
backend is enabled and does not raise; every exception falls back to
`_compute_shadow_octant`, as does the `else` branch when disabled. -/
def rowChoice (enabled : Bool) (r : RowOutcome) : ScanKind :=
  if enabled then
    match r with
    | .ok => .sagaScan
    | .failed _ => .internalScan
  else .internalScan

/-- The `saga_enabled` update of one row. -/
def stepEnabled (enabled : Bool) (r : RowOutcome) : Bool :=
  if enabled then
    match r with
    | .ok => true
    | .failed m => !recognizeUnavailable m
  else false

/-- `saga_enabled` after a run over the given rows. -/
def runEnabled (enabled : Bool) (rows : List RowOutcome) : Bool :=
  rows.foldl stepEnabled enabled

/-- The scan used for each row of a run. -/
def runChoices (enabled : Bool) : List RowOutcome → List ScanKind
  | [] => []
  | r :: rs => rowChoice enabled r :: runChoices (stepEnabled enabled r) rs

/-! ## Concrete scenario inputs -/

/-- C1 heights: 10 m spike at `(5, 5)` on a flat 10x10 grid. -/
def c1Z : ℕ → ℕ → ℚ := fun i j => if i = 5 ∧ j = 5 then 10 else 0

/-- C1 scan inputs: 1 m cells, nodata sentinel −9999 (hit by no height),
azimuth 270° and altitude 45°, whose exact solar geometry is
`theta = (450 − 270) mod 360 = 180°`, `u = (−cos 180°, −sin 180°) = (1, 0)`,
`tan 45° = 1`. -/
def c1Params : ScanParams :=
  { ny := 10, nx := 10, Z := c1Z, nd := ndOf c1Z (-9999)
  , cellx := 1, celly := 1, ux := 1, uy := 0, tanAlt := 1 }

/-- Flat 2x2 grid lit from the exact rational direction `(3/5, 4/5)` (a unit
vector, hence a genuine azimuth) at the positive sun tangent `10⁻⁶`. -/
def c2Params : ScanParams :=
  { ny := 2, nx := 2, Z := fun _ _ => 0, nd := fun _ _ => false
  , cellx := 1, celly := 1, ux := mkRat 3 5, uy := mkRat 4 5
  , tanAlt := mkRat 1 (10 ^ 6) }

/-- Flat 2x2 grid lit from due west (`u = (1,0)`, azimuth 270°) at
altitude 45° (`tan = 1`): the witness input of the amended flat-surface
invariant. -/
def c2FlatParams : ScanParams :=
  { ny := 2, nx := 2, Z := fun _ _ => 0, nd := fun _ _ => false
  , cellx := 1, celly := 1, ux := 1, uy := 0, tanAlt := 1 }

/-- 3x3 grid with a 100 m west wall and a nodata cell in the centre, lit
from due west at altitude 45°: the wall shadows the centre's eight
neighbours and the closing then re-marks the nodata centre. -/
def c3Params : ScanParams :=
  { ny := 3, nx := 3, Z := fun _ j => if j = 0 then 100 else 0
  , nd := fun i j => decide (i = 1 ∧ j = 1)
  , cellx := 1, celly := 1, ux := 1, uy := 0, tanAlt := 1 }

/-- Degenerate but admissible raster: 1x2 grid with a 10⁻⁹ m column step and
sun from due south (`u = (0, 1)`, azimuth 180°).  The perpendicular column
increment lands exactly on the snap threshold, `abs(dS_col) > dir_eps` is
false, and the row-based membership test then loses column 1. -/
def c5Params : ScanParams :=
  { ny := 1, nx := 2, Z := fun _ _ => 0, nd := fun _ _ => false
  , cellx := mkRat 1 (10 ^ 9), celly := 1, ux := 0, uy := 1, tanAlt := 1 }

/-- An alternative height raster for the C3 grid that differs from
`c3Params.Z` exactly at the nodata centre cell. -/
def c3ZAlt : ℕ → ℕ → ℚ := fun i j =>
  if i = 1 ∧ j = 1 then 777 else c3Params.Z i j

/-- The C4 witness heights: a 5 m obstacle in column 0 of a 1x2 grid. -/
def c4wZ : ℕ → ℕ → ℚ := fun _ j => if j = 0 then 5 else 0

/-- The C4 witness strip, deliberately unsorted: the cell of column 1 (at
`L = 1`) listed before the obstacle of column 0 (at `L = 0`). -/
def c4wCells : List Cell := [(1, 0, 1), (0, 0, 0)]

/-- The C9 witness run: a success, an unrecognised numeric failure, a
recognised unavailability failure, then a row after the downgrade. -/
def c9Rows : List RowOutcome :=
  [.ok, .failed "division by zero in row 17",
   .failed "Algorithm sagang:analyticalhillshading not found", .ok]

end Windshade

/-! # Theorems -/

namespace Windshade

theorem qinv_eq_inv (q : ℚ) : qinv q = q⁻¹ := by
  rcases eq_or_ne q 0 with h | h
  · subst h; rw [inv_zero]; decide
  · have hn : q.num ≠ 0 := Rat.num_ne_zero.mpr h
    refine eq_inv_of_mul_eq_one_left ?_
    have hsign : q.num.sign * q.num = (q.num.natAbs : ℤ) := by
      rcases lt_trichotomy q.num 0 with hlt | heq | hgt
      · rw [Int.sign_eq_neg_one_of_neg hlt]; omega
      · omega
      · rw [Int.sign_eq_one_of_pos hgt]; omega
    have e1 : qinv q = Rat.divInt (q.num.sign * (q.den : ℤ)) (q.num.natAbs : ℤ) := by
      rw [qinv]; exact Rat.mkRat_eq_divInt _ _
    have e2 : q = Rat.divInt q.num (q.den : ℤ) := (Rat.num_divInt_den q).symm
    rw [e1]
    nth_rewrite 4 [e2]
    rw [Rat.divInt_mul_divInt']
    rw [show q.num.sign * (q.den : ℤ) * q.num = (q.num.natAbs : ℤ) * q.den by
          rw [mul_right_comm, hsign]]
    exact Rat.divInt_self' (by positivity)

theorem qdiv_eq_div (a b : ℚ) : qdiv a b = a / b := by
  rw [qdiv, qinv_eq_inv, div_eq_mul_inv]

/-! ## Mask access lemmas -/

theorem getD_set_eq {α : Type} (l : List α) (j y : ℕ) (v d : α) :
    (l.set j v).getD y d = if j = y ∧ j < l.length then v else l.getD y d := by
  rw [List.getD_eq_getElem?_getD, List.getElem?_set, List.getD_eq_getElem?_getD]
  by_cases h1 : j = y
  · subst h1
    by_cases h2 : j < l.length
    · simp [h2]
    · simp [h2, List.getElem?_eq_none (le_of_not_lt h2)]
  · simp [h1]

theorem mget_mset (m : List (List Bool)) (i j x y : ℕ) (v : Bool) :
    mget (mset m i j v) x y =
      if i = x ∧ j = y ∧ i < m.length ∧ j < (m.getD i []).length then v
      else mget m x y := by
  rw [mget, mset, getD_set_eq]
  by_cases h1 : i = x ∧ i < m.length
  · obtain ⟨rfl, h2⟩ := h1
    rw [if_pos ⟨rfl, h2⟩, getD_set_eq]
    by_cases h3 : j = y ∧ j < (m.getD i []).length
    · rw [if_pos h3, if_pos ⟨rfl, h3.1, h2, h3.2⟩]
    · rw [if_neg h3, if_neg (fun hc => h3 ⟨hc.2.1, hc.2.2.2⟩), mget]
  · rw [if_neg h1, if_neg (fun hc => h1 ⟨hc.1, hc.2.2.1⟩), mget]

theorem mget_mset_ne (m : List (List Bool)) (i j x y : ℕ) (v : Bool)
    (h : ¬(i = x ∧ j = y)) : mget (mset m i j v) x y = mget m x y := by
  rw [mget_mset, if_neg]
  intro hc
  exact h ⟨hc.1, hc.2.1⟩

theorem mget_mset_self (m : List (List Bool)) (ny nx i j : ℕ) (v : Bool)
    (hm : MaskShape ny nx m) (hi : i < ny) (hj : j < nx) :
    mget (mset m i j v) i j = v := by
  have hlen : i < m.length := hm.1 ▸ hi
  have hrow : (m.getD i []).length = nx := by
    rw [List.getD_eq_getElem?_getD, List.getElem?_eq_getElem hlen]
    exact hm.2 _ (List.getElem_mem hlen)
  rw [mget_mset, if_pos ⟨rfl, rfl, hlen, hrow ▸ hj⟩]

theorem maskShape_mset (m : List (List Bool)) (ny nx i j : ℕ) (v : Bool)
    (hm : MaskShape ny nx m) : MaskShape ny nx (mset m i j v) := by
  by_cases hi : i < m.length
  · refine ⟨by rw [mset, List.length_set]; exact hm.1, fun r hr => ?_⟩
    rw [mset] at hr
    rcases List.mem_or_eq_of_mem_set hr with h | h
    · exact hm.2 r h
    · subst h
      rw [List.length_set, List.getD_eq_getElem?_getD, List.getElem?_eq_getElem hi]
      exact hm.2 _ (List.getElem_mem hi)
  · rw [mset, List.set_eq_of_length_le (le_of_not_lt hi)]
    exact hm

theorem getD_replicate {α : Type} (n : ℕ) (a : α) (i : ℕ) (d : α) :
    (List.replicate n a).getD i d = if i < n then a else d := by
  rw [List.getD_eq_getElem?_getD]
  rcases lt_or_ge i n with h | h
  · rw [List.getElem?_eq_getElem (by simpa using h)]
    simp [h]
  · rw [List.getElem?_eq_none (by simpa using h)]
    simp [not_lt.mpr h]

theorem getD_map_range {α : Type} (n : ℕ) (g : ℕ → α) (i : ℕ) (d : α) :
    ((List.range n).map g).getD i d = if i < n then g i else d := by
  rw [List.getD_eq_getElem?_getD, List.getElem?_map]
  rcases lt_or_ge i n with h | h
  · rw [List.getElem?_range h]
    simp [h]
  · rw [List.getElem?_eq_none (by simpa using h)]
    simp [not_lt.mpr h]

theorem mget_mkMask (ny nx i j : ℕ) : mget (mkMask ny nx) i j = false := by
  rw [mget, mkMask, getD_replicate]
  by_cases h : i < ny
  · rw [if_pos h, getD_replicate]
    split_ifs <;> rfl
  · rw [if_neg h]
    rfl

theorem maskShape_mkMask (ny nx : ℕ) : MaskShape ny nx (mkMask ny nx) := by
  refine ⟨List.length_replicate _ _, fun r hr => ?_⟩
  rw [List.eq_of_mem_replicate hr]
  exact List.length_replicate _ _

theorem mget_mtab (ny nx : ℕ) (f : ℕ → ℕ → Bool) (i j : ℕ) :
    mget (mtab ny nx f) i j = if i < ny ∧ j < nx then f i j else false := by
  rw [mget, mtab, getD_map_range]
  by_cases h : i < ny
  · rw [if_pos h, getD_map_range]
    by_cases h2 : j < nx
    · rw [if_pos h2, if_pos ⟨h, h2⟩]
    · rw [if_neg h2, if_neg (fun hc => h2 hc.2)]
  · rw [if_neg h, if_neg (fun hc => h hc.1)]
    rfl

theorem maskShape_mtab (ny nx : ℕ) (f : ℕ → ℕ → Bool) :
    MaskShape ny nx (mtab ny nx f) := by
  refine ⟨by rw [mtab, List.length_map, List.length_range], fun r hr => ?_⟩
  rw [mtab] at hr
  obtain ⟨i, _, rfl⟩ := List.mem_map.mp hr
  rw [List.length_map, List.length_range]

/-! ## Sorting lemmas -/

theorem sortCells_perm (cs : List Cell) : (sortCells cs).Perm cs := by
  rw [sortCells]
  have h1 : (List.insertionSort cellRel cs.enum).Perm cs.enum :=
    List.perm_insertionSort _ _
  have h2 := h1.map fun kc : ℕ × Cell => kc.2
  refine h2.trans ?_
  rw [show (fun kc : ℕ × Cell => kc.2) = Prod.snd from rfl, List.enum_map_snd]

theorem sortCells_sorted_L (cs : List Cell) :
    (sortCells cs).Pairwise fun a b => a.1 ≤ b.1 := by
  rw [sortCells]
  have h1 : List.Pairwise cellRel (List.insertionSort cellRel cs.enum) :=
    List.sorted_insertionSort cellRel cs.enum
  refine List.Pairwise.map _ ?_ h1
  intro a b hab
  rcases hab with h | ⟨h, _⟩
  · exact le_of_lt h
  · exact le_of_eq h

/-! ## Horizon loop lemmas (with `maxd = 0`, the unlimited default) -/

theorem horizonLoop_cons (Z : ℕ → ℕ → ℚ) (tanAlt eps L0 : ℚ) (c : Cell)
    (rest : List Cell) (h0 : ℚ) (m : List (List Bool)) :
    horizonLoop Z tanAlt eps L0 0 (c :: rest) h0 m =
      horizonLoop Z tanAlt eps L0 0 rest (max h0 (targetT Z tanAlt L0 c))
        (if targetT Z tanAlt L0 c - eps < h0 then mset m c.2.1 c.2.2 true else m) := by
  rw [horizonLoop]
  rw [if_neg]
  rintro ⟨h, _⟩
  exact absurd h (lt_irrefl 0)

theorem horizonLoop_mget_notmem (Z : ℕ → ℕ → ℚ) (tanAlt eps L0 : ℚ)
    (cs : List Cell) (h0 : ℚ) (m : List (List Bool)) (x y : ℕ)
    (hx : ∀ c ∈ cs, ¬(c.2.1 = x ∧ c.2.2 = y)) :
    mget (horizonLoop Z tanAlt eps L0 0 cs h0 m) x y = mget m x y := by
  induction cs generalizing h0 m with
  | nil => rw [horizonLoop]
  | cons c rest IH =>
    rw [horizonLoop_cons, IH _ _ (fun d hd => hx d (List.mem_cons_of_mem _ hd))]
    by_cases hc : targetT Z tanAlt L0 c - eps < h0
    · rw [if_pos hc, mget_mset_ne _ _ _ _ _ _ (hx c (List.mem_cons_self _ _))]
    · rw [if_neg hc]

theorem horizonLoop_shape (Z : ℕ → ℕ → ℚ) (tanAlt eps L0 : ℚ)
    (cs : List Cell) (h0 : ℚ) (m : List (List Bool)) (ny nx : ℕ)
    (hm : MaskShape ny nx m) :
    MaskShape ny nx (horizonLoop Z tanAlt eps L0 0 cs h0 m) := by
  induction cs generalizing h0 m with
  | nil => rw [horizonLoop]; exact hm
  | cons c rest IH =>
    rw [horizonLoop_cons]
    refine IH _ _ ?_
    by_cases hc : targetT Z tanAlt L0 c - eps < h0
    · rw [if_pos hc]; exact maskShape_mset _ _ _ _ _ _ hm
    · rw [if_neg hc]; exact hm

/-- The per-cell characterisation of the horizon sweep: the `k`-th visited
cell is marked exactly when it was already marked or when the running
maximum of the previously visited projected heights (seeded with the start
horizon) exceeds its own `T - eps`. -/
theorem horizonLoop_mget (Z : ℕ → ℕ → ℚ) (tanAlt eps L0 : ℚ) (cs : List Cell)
    (h0 : ℚ) (m : List (List Bool)) (ny nx : ℕ)
    (hm : MaskShape ny nx m)
    (hnd : (cs.map fun c => c.2).Nodup)
    (hgrid : ∀ c ∈ cs, c.2.1 < ny ∧ c.2.2 < nx)
    (k : ℕ) (hk : k < cs.length) :
    mget (horizonLoop Z tanAlt eps L0 0 cs h0 m)
        (cs.get ⟨k, hk⟩).2.1 (cs.get ⟨k, hk⟩).2.2 =
      (mget m (cs.get ⟨k, hk⟩).2.1 (cs.get ⟨k, hk⟩).2.2 ||
       decide (targetT Z tanAlt L0 (cs.get ⟨k, hk⟩) - eps
          < runMax Z tanAlt L0 h0 (cs.take k))) := by
  induction cs generalizing h0 m k with
  | nil => exact absurd hk (by simp)
  | cons c rest IH =>
    rw [horizonLoop_cons]
    cases k with
    | zero =>
      have hcpos : ∀ d ∈ rest, ¬(d.2.1 = c.2.1 ∧ d.2.2 = c.2.2) := by
        intro d hd hc
        have : c.2 ∈ rest.map fun e => e.2 := by
          refine List.mem_map.mpr ⟨d, hd, ?_⟩
          exact Prod.ext hc.1 hc.2
        exact (List.nodup_cons.mp hnd).1 this
      have hget : (c :: rest).get ⟨0, hk⟩ = c := rfl
      rw [hget]
      simp only [List.take_zero, runMax, List.foldl_nil]
      rw [horizonLoop_mget_notmem _ _ _ _ _ _ _ _ _ hcpos]
      by_cases hc : targetT Z tanAlt L0 c - eps < h0
      · rw [if_pos hc,
          mget_mset_self _ ny nx _ _ _ hm (hgrid c (List.mem_cons_self _ _)).1
            (hgrid c (List.mem_cons_self _ _)).2]
        simp [hc]
      · rw [if_neg hc]
        simp [hc]
    | succ k =>
      have hk' : k < rest.length := Nat.lt_of_succ_lt_succ hk
      have hm1 : MaskShape ny nx
          (if targetT Z tanAlt L0 c - eps < h0 then mset m c.2.1 c.2.2 true else m) := by
        by_cases hc : targetT Z tanAlt L0 c - eps < h0
        · rw [if_pos hc]; exact maskShape_mset _ _ _ _ _ _ hm
        · rw [if_neg hc]; exact hm
      have IH2 := IH (max h0 (targetT Z tanAlt L0 c))
        (if targetT Z tanAlt L0 c - eps < h0 then mset m c.2.1 c.2.2 true else m)
        hm1 (List.nodup_cons.mp hnd).2
        (fun d hd => hgrid d (List.mem_cons_of_mem _ hd)) k hk'
      rw [show ((c :: rest).get ⟨k + 1, hk⟩) = rest.get ⟨k, hk'⟩ from rfl, IH2]
      have hne : ¬(c.2.1 = (rest.get ⟨k, hk'⟩).2.1 ∧
          c.2.2 = (rest.get ⟨k, hk'⟩).2.2) := by
        intro hc
        have : c.2 ∈ rest.map fun e => e.2 := by
          refine List.mem_map.mpr ⟨rest.get ⟨k, hk'⟩, List.get_mem _ _ _, ?_⟩
          exact (Prod.ext hc.1 hc.2).symm
        exact (List.nodup_cons.mp hnd).1 this
      have hmg : mget (if targetT Z tanAlt L0 c - eps < h0
            then mset m c.2.1 c.2.2 true else m)
          (rest.get ⟨k, hk'⟩).2.1 (rest.get ⟨k, hk'⟩).2.2 =
          mget m (rest.get ⟨k, hk'⟩).2.1 (rest.get ⟨k, hk'⟩).2.2 := by
        by_cases hc : targetT Z tanAlt L0 c - eps < h0
        · rw [if_pos hc, mget_mset_ne _ _ _ _ _ _ hne]
        · rw [if_neg hc]
      rw [hmg]
      rfl

/-! ## Strip cell collection lemmas -/

theorem mem_intRange {lo hi z : ℤ} : z ∈ intRange lo hi ↔ lo ≤ z ∧ z ≤ hi := by
  simp only [intRange, List.mem_map, List.mem_range]
  constructor
  · rintro ⟨t, ht, rfl⟩
    omega
  · intro h
    exact ⟨(z - lo).toNat, by omega, by omega⟩

theorem intRange_pairwise_lt (lo hi : ℤ) : (intRange lo hi).Pairwise (· < ·) := by
  rw [intRange]
  exact List.Pairwise.map _ (fun a b hab => by omega)
    (List.pairwise_lt_range _)

theorem rowWindow_pairwise_lt (p : ScanParams) (sT hW : ℚ) (i : ℕ) :
    (rowWindow p sT hW i).Pairwise (· < ·) := by
  rw [rowWindow]
  split_ifs
  · exact intRange_pairwise_lt _ _
  · exact List.Pairwise.nil
  · exact intRange_pairwise_lt _ _

theorem stripCellAt_eq_some {p : ScanParams} {sT hW : ℚ} {i : ℕ} {jz : ℤ}
    {c : Cell} (h : stripCellAt p sT hW i jz = some c) :
    0 ≤ jz ∧ jz < (p.nx : ℤ) ∧ c = (cellL p i jz.toNat, i, jz.toNat) ∧
      |cellS p i jz.toNat - sT| ≤ hW ∧ p.nd i jz.toNat = false := by
  simp only [stripCellAt] at h
  split_ifs at h with h1 h2
  · exact ⟨h1.1, h1.2, (Option.some.inj h).symm, h2.1, by simpa using h2.2⟩

theorem mem_stripCells {p : ScanParams} {s : ℤ} {c : Cell}
    (h : c ∈ stripCells p s) :
    c.2.1 < p.ny ∧ c.2.2 < p.nx ∧ p.nd c.2.1 c.2.2 = false ∧
      c.1 = cellL p c.2.1 c.2.2 ∧
      |cellS p c.2.1 c.2.2 - (s : ℚ) * stripW p| ≤ mkRat 1 2 * stripW p := by
  simp only [stripCells] at h
  obtain ⟨i, hi, hmem⟩ := List.mem_flatMap.mp h
  obtain ⟨jz, _, hjz⟩ := List.mem_filterMap.mp hmem
  obtain ⟨h0, h1, rfl, h3, h4⟩ := stripCellAt_eq_some hjz
  exact ⟨List.mem_range.mp hi, (by omega : jz.toNat < p.nx), h4, rfl, h3⟩

theorem stripCells_pairwise_ne (p : ScanParams) (s : ℤ) :
    (stripCells p s).Pairwise fun a b => a.2 ≠ b.2 := by
  simp only [stripCells]
  rw [List.pairwise_flatMap]
  constructor
  · intro i _
    rw [List.pairwise_filterMap]
    refine (rowWindow_pairwise_lt p _ _ i).imp ?_
    intro jz jz' hlt c hc c' hc' heq
    obtain ⟨ha, _, rfl, _, _⟩ := stripCellAt_eq_some hc
    obtain ⟨ha', _, rfl, _, _⟩ := stripCellAt_eq_some hc'
    have : jz.toNat = jz'.toNat := congrArg Prod.snd heq
    omega
  · refine (List.pairwise_lt_range p.ny).imp ?_
    intro i i' hlt c hc c' hc' heq
    obtain ⟨jz, _, hjz⟩ := List.mem_filterMap.mp hc
    obtain ⟨jz', _, hjz'⟩ := List.mem_filterMap.mp hc'
    obtain ⟨_, _, rfl, _, _⟩ := stripCellAt_eq_some hjz
    obtain ⟨_, _, rfl, _, _⟩ := stripCellAt_eq_some hjz'
    have : i = i' := congrArg (fun q : ℕ × ℕ => q.1) heq
    omega

theorem stripCells_pos_nodup (p : ScanParams) (s : ℤ) :
    ((stripCells p s).map fun c => c.2).Nodup := by
  rw [List.Nodup, List.pairwise_map]
  exact stripCells_pairwise_ne p s

/-! ## All-false preservation (for the flat-surface invariant) -/

theorem getD_false_of_all {l : List Bool} (h : ∀ b ∈ l, b = false) (k : ℕ) :
    l.getD k false = false := by
  induction l generalizing k with
  | nil => rfl
  | cons b t IH =>
    cases k with
    | zero => exact h b (List.mem_cons_self _ _)
    | succ k => exact IH (fun x hx => h x (List.mem_cons_of_mem _ hx)) k

theorem gapFilled_false {vals : List Bool} (hv : ∀ b ∈ vals, b = false) (g k : ℕ) :
    gapFilled vals g k = false := by
  have hrun : ∀ a b, isFillRun vals g a b = false := by
    intro a b
    rw [isFillRun, getD_false_of_all hv (a - 1)]
    simp
  rw [gapFilled, getD_false_of_all hv k, Bool.false_or, List.any_eq_false]
  intro a ha
  rw [Bool.not_eq_true, List.any_eq_false]
  intro b hb
  rw [Bool.not_eq_true, hrun a b]
  simp

theorem gapFillStrip_allfalse (g : ℕ) (cs : List Cell) (m : List (List Bool))
    (hm : ∀ x y, mget m x y = false) :
    ∀ x y, mget (gapFillStrip g cs m) x y = false := by
  intro x y
  rw [gapFillStrip]
  split_ifs with hg
  · exact hm x y
  have hv : ∀ b ∈ cs.map fun c => mget m c.2.1 c.2.2, b = false := by
    intro b hb
    obtain ⟨c, _, rfl⟩ := List.mem_map.mp hb
    exact hm _ _
  have : ∀ (l : List (ℕ × Cell)),
      (l.foldl (fun acc kc =>
        if gapFilled (cs.map fun c => mget m c.2.1 c.2.2) g kc.1
        then mset acc kc.2.2.1 kc.2.2.2 true else acc) m) = m := by
    intro l
    induction l with
    | nil => rfl
    | cons kc t IH =>
      rw [List.foldl_cons, if_neg]
      · exact IH
      · rw [gapFilled_false hv]
        simp
  rw [this]
  exact hm x y

theorem horizonLoop_allfalse (Z : ℕ → ℕ → ℚ) (t e L0 : ℚ) (cs : List Cell)
    (h0 : ℚ) (m : List (List Bool))
    (hm : ∀ x y, mget m x y = false) (he : 0 ≤ e)
    (hfirst : ∀ h : 0 < cs.length, h0 ≤ targetT Z t L0 (cs.get ⟨0, h⟩) - e)
    (hchain : cs.Chain' fun a b => targetT Z t L0 a + e ≤ targetT Z t L0 b) :
    ∀ x y, mget (horizonLoop Z t e L0 0 cs h0 m) x y = false := by
  induction cs generalizing h0 m with
  | nil => intro x y; rw [horizonLoop]; exact hm x y
  | cons c rest IH =>
    rw [horizonLoop_cons]
    have hc0 : h0 ≤ targetT Z t L0 c - e := hfirst (by simp)
    rw [if_neg (not_lt.mpr hc0)]
    refine IH _ _ hm ?_ hchain.tail
    intro h
    cases rest with
    | nil => exact absurd h (by simp)
    | cons d rest' =>
      have hcd : targetT Z t L0 c + e ≤ targetT Z t L0 d :=
        (List.chain'_cons.mp hchain).1
      have : (d :: rest').get ⟨0, h⟩ = d := rfl
      rw [this]
      refine max_le ?_ ?_ <;> linarith

theorem headD_eq_get {α : Type} (l : List α) (d : α) (h : 0 < l.length) :
    l.headD d = l.get ⟨0, h⟩ := by
  cases l
  · simp at h
  · rfl

theorem epsOf_pos {cx cy : ℚ} (hx : 0 < cx) (hy : 0 < cy) : 0 < epsOf cx cy := by
  rw [epsOf]
  have h1 : (0 : ℚ) < mkRat 1 (10 ^ 5) := by
    rw [Rat.mkRat_eq_divInt, Rat.divInt_eq_div]
    positivity
  exact mul_pos h1 (lt_max_of_lt_left hx)

theorem dilateF_allfalse (ny nx k : ℕ) (f : ℕ → ℕ → Bool)
    (hf : ∀ a b, f a b = false) (i j : ℕ) : dilateF ny nx k f i j = false := by
  rw [dilateF, List.any_eq_false]
  intro o _
  rw [Bool.not_eq_true, getPad]
  split_ifs with hin
  · exact hf _ _
  · rfl

theorem mclose_allfalse (ny nx : ℕ) (m : List (List Bool))
    (hm : ∀ x y, mget m x y = false) :
    ∀ i j, mget (mclose ny nx m) i j = false := by
  intro i j
  simp only [mclose]
  rw [mget_mtab]
  split_ifs with hin
  · simp only [Bool.not_eq_false']
    rw [dilateF, List.any_eq_true]
    refine ⟨(0, 0), by simp [offsets], ?_⟩
    rw [getPad, if_pos (by omega : 0 ≤ (i : ℤ) + 0 ∧ (i : ℤ) + 0 < (ny : ℤ) ∧
      0 ≤ (j : ℤ) + 0 ∧ (j : ℤ) + 0 < (nx : ℤ))]
    have hti : ((i : ℤ) + 0).toNat = i := by omega
    have htj : ((j : ℤ) + 0).toNat = j := by omega
    rw [hti, htj, Bool.not_eq_true', mget_mtab, if_pos hin]
    exact dilateF_allfalse _ _ _ _ hm i j
  · rfl

section DecideRat
attribute [local semireducible] Rat.add Rat.sub Rat.mul Rat.inv

set_option maxRecDepth 1000000

/-- C1: end-to-end spike scenario.  On the 10x10 grid of 1 m cells with
nodata sentinel −9999 and a single 10 m spike at `(5, 5)`, lit from azimuth
270° at altitude 45° (exact direction `(1, 0)`, `tan = 1`), the internal
scan with fat-shadow off, max-gap 3, 3x3 closing and unlimited max distance
marks exactly the cells `(5, 6), (5, 7), (5, 8), (5, 9)`. -/
theorem c1_spike_scenario :
    computeShadowMask c1Params 32 0 (mkRat (-1) 2) 3 false 3 =
      [List.replicate 10 false, List.replicate 10 false, List.replicate 10 false,
       List.replicate 10 false, List.replicate 10 false,
       [false, false, false, false, false, false, true, true, true, true],
       List.replicate 10 false, List.replicate 10 false, List.replicate 10 false,
       List.replicate 10 false] := by decide

/-- C2 (counterexample): the flat-surface invariant fails as stated.  The
direction `(3/5, 4/5)` is a rational point of the unit circle (a genuine
azimuth) and the altitude has the strictly positive tangent `10⁻⁶`, yet the
internal scan on a flat, nodata-free 2x2 grid of 1 m cells returns an
all-true mask: strip −1 holds the two cells `(1,0)` and `(0,1)` whose
along-light gap `7/5` satisfies `tan · 7/5 < eps`, so the second one is
"self-shadowed" by the tolerance, and the 2x2 closing then floods the grid. -/
theorem c2_counterexample :
    (mkRat 3 5) ^ 2 + (mkRat 4 5) ^ 2 = 1 ∧
    (0 : ℚ) < mkRat 1 (10 ^ 6) ∧
    computeShadowMask c2Params 32 0 (mkRat (-1) 2) 3 false 3 =
      [[true, true], [true, true]] := by decide

/-- C3 (counterexample): a nodata cell CAN be shadow=true in the final mask
handed to the mask writer.  `shadow[mask_nd] = False` runs before the 2D
closing; on the west-wall grid the closing re-marks the nodata centre. -/
theorem c3_counterexample :
    c3Params.nd 1 1 = true ∧
    mget (computeShadowMask c3Params 32 0 (mkRat (-1) 2) 3 false 3) 1 1 = true := by
  decide

/-- C4 (counterexample): the horizon does not start from −∞ but from the
finite `−1e38`.  A strip whose single cell has the (float32-representable)
height `−2·10³⁸` is marked shadowed by the scan, while the specification's
"starting from −∞" rule marks nothing on a one-cell strip. -/
theorem c4_counterexample :
    mget (horizonLoop (fun _ _ => -2 * 10 ^ 38) 1 (epsOf 1 1) 0 0
      [(0, 0, 0)] horizonInit (mkMask 1 1)) 0 0 = true ∧
    mget (horizonLoopInfStart (fun _ _ => -2 * 10 ^ 38) 1 (epsOf 1 1) 0 0
      [(0, 0, 0)] none (mkMask 1 1)) 0 0 = false := by decide

/-- C5 (counterexample): strip coverage fails as stated.  On the degenerate
1x2 raster with column step 10⁻⁹ m and sun from due south the perpendicular
column increment is exactly `dir_eps`: it survives the snap (`< 1e-9` is
false) but fails the window test (`> 1e-9` is false), so membership is
decided by the row coordinate alone and the non-nodata cell `(0, 1)` is
assigned to no strip of the processed range. -/
theorem c5_counterexample :
    c5Params.nd 0 1 = false ∧ 1 < c5Params.nx ∧ 0 < c5Params.ny ∧
    ((intRange (sIdxMin c5Params) (sIdxMax c5Params)).all fun s =>
      (stripCells c5Params s).all fun c => !(decide (c.2 = ((0 : ℕ), (1 : ℕ))))) = true := by
  decide

/-- C7 (counterexample): the override is keyed on `|c − 5| < 1e-6`, not on
`c = 5`.  With the constant `5 + 10⁻⁷` (≠ 5), a lit cell of positive height
still receives 5 instead of the claimed 0. -/
theorem c7_counterexample :
    (5 + mkRat 1 (10 ^ 7) : ℚ) ≠ 5 ∧
    writeShadowMask (fun _ _ => 3) (fun _ _ => false) (-9999) [[false]]
      (5 + mkRat 1 (10 ^ 7)) 0 0 = 5 := by decide

end DecideRat

/-- C7 (amended): the writer maps nodata to the sentinel always; when
`|c − 5| < 1e-6` every non-nodata cell of positive height is forced to 5
regardless of its shadow state; for every constant with `|c − 5| ≥ 1e-6`,
and also for non-positive heights under a near-5 constant, shadowed cells
receive `c` and lit cells `0`. -/
theorem c7_class5_override (Z : ℕ → ℕ → ℚ) (nd : ℕ → ℕ → Bool) (nodata : ℚ)
    (shadow : List (List Bool)) (c : ℚ) (i j : ℕ) :
    (nd i j = true → writeShadowMask Z nd nodata shadow c i j = nodata) ∧
    (nd i j = false → |c - 5| < mkRat 1 (10 ^ 6) → 0 < Z i j →
      writeShadowMask Z nd nodata shadow c i j = 5) ∧
    (nd i j = false → mkRat 1 (10 ^ 6) ≤ |c - 5| →
      writeShadowMask Z nd nodata shadow c i j =
        if mget shadow i j then c else 0) ∧
    (nd i j = false → |c - 5| < mkRat 1 (10 ^ 6) → Z i j ≤ 0 →
      writeShadowMask Z nd nodata shadow c i j =
        if mget shadow i j then c else 0) := by
  refine ⟨fun h1 => ?_, fun h1 h2 h3 => ?_, fun h1 h2 => ?_, fun h1 h2 h3 => ?_⟩
  · simp [writeShadowMask, h1]
  · simp only [writeShadowMask, h1]
    rw [if_neg Bool.false_ne_true, if_pos ⟨h2, by simp [h3]⟩]
  · simp only [writeShadowMask, h1]
    rw [if_neg Bool.false_ne_true, if_neg (fun hc => absurd hc.1 (not_lt.mpr h2))]
    simp
  · simp only [writeShadowMask, h1]
    rw [if_neg Bool.false_ne_true,
      if_neg (fun hc => by
        have hb := hc.2
        simp only [Bool.not_false, Bool.true_and, decide_eq_true_eq] at hb
        exact absurd hb (not_lt.mpr h3))]
    simp

/-- C7 witness: the amended override theorem applied to a 1x1 grid of height
3 with the constant 7 (far from 5) and a lit cell: the output is 0. -/
theorem c7_class5_override_witness :
    writeShadowMask (fun _ _ => 3) (fun _ _ => false) (-9999) [[false]] 7 0 0 = 0 := by
  have h := (c7_class5_override (fun _ _ => 3) (fun _ _ => false) (-9999)
    [[false]] 7 0 0).2.2.1 rfl (by norm_num)
  rw [h]; decide

/-- C10: the `octants` and `edge_bias_px` arguments are dead parameters of
`_compute_shadow_octant`: for every grid, direction, constant and fat-shadow
setting, invocations differing only in those two arguments produce the same
shadow mask and the same output raster. -/
theorem stepEnabled_eq (e : Bool) (r : RowOutcome) :
    stepEnabled e r = (e && !rowRecognized r) := by
  cases e <;> cases r <;> simp [stepEnabled, rowRecognized]

/-- C9: backend fallback classification.  For every preference flag and
every sequence of per-row backend outcomes: (i) `saga_enabled` after the run
is the preference AND the absence of any failure recognized as "algorithm
unavailable" (so the downgrade happens exactly at the first recognized
failure and at no other exception); (ii) a row's mask comes from the
backend exactly when the backend is still enabled at that row and does not
raise there; (iii) in particular every row on which the backend raises falls
back to the internal horizon scan. -/
theorem c9_backend_fallback (prefer : Bool) (rows : List RowOutcome) :
    runEnabled prefer rows = (prefer && !(rows.any rowRecognized)) ∧
    (∀ k, k < rows.length →
      (runChoices prefer rows).getD k .internalScan =
        if ((prefer && !((rows.take k).any rowRecognized))
            && !(rowFails (rows.getD k .ok))) = true
        then .sagaScan else .internalScan) ∧
    (∀ k, k < rows.length → rowFails (rows.getD k .ok) = true →
      (runChoices prefer rows).getD k .internalScan = .internalScan) := by
  have main : ∀ (rows : List RowOutcome) (prefer : Bool),
      runEnabled prefer rows = (prefer && !(rows.any rowRecognized)) ∧
      (∀ k, k < rows.length →
        (runChoices prefer rows).getD k .internalScan =
          if ((prefer && !((rows.take k).any rowRecognized))
              && !(rowFails (rows.getD k .ok))) = true
          then .sagaScan else .internalScan) := by
    intro rows
    induction rows with
    | nil =>
      exact fun prefer => ⟨by simp [runEnabled], fun k hk => absurd hk (by simp)⟩
    | cons r rs IH =>
      intro prefer
      refine ⟨?_, ?_⟩
      · have h1 := (IH (stepEnabled prefer r)).1
        show runEnabled (stepEnabled prefer r) rs = _
        rw [h1, stepEnabled_eq]
        cases prefer <;> cases hr : rowRecognized r <;> simp [hr]
      · intro k hk
        cases k with
        | zero =>
          show rowChoice prefer r = _
          cases prefer <;> cases r <;> simp [rowChoice, rowFails]
        | succ k =>
          have h2 := (IH (stepEnabled prefer r)).2 k (Nat.lt_of_succ_lt_succ hk)
          have step : (runChoices prefer (r :: rs)).getD (k + 1) .internalScan =
              (runChoices (stepEnabled prefer r) rs).getD k .internalScan := by
            simp [runChoices]
          rw [step, h2, stepEnabled_eq]
          have hcond : ((prefer && !rowRecognized r)
                && !((rs.take k).any rowRecognized)) =
              (prefer && !(((r :: rs).take (k + 1)).any rowRecognized)) := by
            cases prefer <;> cases hr : rowRecognized r <;> simp [hr]
          rw [hcond]
          simp
  refine ⟨(main rows prefer).1, (main rows prefer).2, fun k hk hf => ?_⟩
  rw [(main rows prefer).2 k hk, hf]
  simp

/-- C9 witness: on the concrete run `[ok, numeric failure, recognized
unavailability, ok]` with the backend preferred, the failing second row
falls back to the internal scan and the final state is disabled. -/
theorem c9_backend_fallback_witness :
    rowFails (c9Rows.getD 1 .ok) = true ∧
    (runChoices true c9Rows).getD 1 .internalScan = .internalScan ∧
    runEnabled true c9Rows = false := by
  refine ⟨by decide, (c9_backend_fallback true c9Rows).2.2 1 (by decide) (by decide), ?_⟩
  rw [(c9_backend_fallback true c9Rows).1]
  decide

theorem c10_octants_edge_bias_unused (p : ScanParams) (o1 o2 : ℕ)
    (maxd e1 e2 : ℚ) (g : ℕ) (fat : Bool) (fk : ℕ) (nodata c : ℚ) :
    computeShadowMask p o1 maxd e1 g fat fk =
      computeShadowMask p o2 maxd e2 g fat fk ∧
    computeShadowOctant p o1 maxd e1 g fat fk nodata c =
      computeShadowOctant p o2 maxd e2 g fat fk nodata c :=
  ⟨rfl, rfl⟩

/-- C4 (amended): the horizon-sweep classification rule.  The raw scanner
visits a strip's cells in ascending order of `L` (the sorted list is an
ascending permutation of the collected cells); with `L0` the minimum `L`
(the head of the sorted list) and `eps = 1e-5 * max(cell_width, cell_height)`,
the `k`-th visited cell with projected height `T = height + tan_alt * (L - L0)`
is marked shadow exactly when the running horizon before it — the maximum of
the previously visited `T`s starting from the finite `-1e38`, so shadowed
cells also raise it — is strictly greater than `T - eps`. -/
theorem c4_horizon_rule (Z : ℕ → ℕ → ℚ) (tanAlt cellx celly : ℚ)
    (cs : List Cell) (m : List (List Bool)) (ny nx : ℕ)
    (hm : MaskShape ny nx m)
    (hnd : ((sortCells cs).map fun c => c.2).Nodup)
    (hgrid : ∀ c ∈ sortCells cs, c.2.1 < ny ∧ c.2.2 < nx) :
    ((sortCells cs).Pairwise fun a b => a.1 ≤ b.1) ∧
    (sortCells cs).Perm cs ∧
    (∀ k (hk : k < (sortCells cs).length),
      mget (horizonLoop Z tanAlt (epsOf cellx celly)
          ((sortCells cs).headD (0, 0, 0)).1 0 (sortCells cs) horizonInit m)
        ((sortCells cs).get ⟨k, hk⟩).2.1 ((sortCells cs).get ⟨k, hk⟩).2.2 =
      (mget m ((sortCells cs).get ⟨k, hk⟩).2.1 ((sortCells cs).get ⟨k, hk⟩).2.2 ||
       decide (targetT Z tanAlt ((sortCells cs).headD (0, 0, 0)).1
            ((sortCells cs).get ⟨k, hk⟩) - epsOf cellx celly
          < runMax Z tanAlt ((sortCells cs).headD (0, 0, 0)).1 horizonInit
              ((sortCells cs).take k)))) :=
  ⟨sortCells_sorted_L cs, sortCells_perm cs,
   fun k hk => horizonLoop_mget Z tanAlt (epsOf cellx celly)
     ((sortCells cs).headD (0, 0, 0)).1 (sortCells cs) horizonInit m ny nx
     hm hnd hgrid k hk⟩

/-- C2 (amended): the flat-surface invariant with the proviso the
counterexample forces.  For a uniform-height grid, sun tangent strictly
positive, positive cell sizes, uniform height above `eps - 1e38`, and every
pair of distinct cells sharing a strip separated by at least `eps / tan_alt`
in along-light coordinate, the final mask of the internal scan (gap fill and
2D closing included, fat-shadow off) is entirely false.  (The nodata-free
hypothesis of the claim is kept although the proof never needs it.) -/
theorem c2_flat_no_selfshadow (p : ScanParams) (h : ℚ) (octants : ℕ)
    (edge : ℚ) (gapMax fatK : ℕ)
    (hflat : ∀ i j, i < p.ny → j < p.nx → p.Z i j = h)
    (hnodata : ∀ i j, p.nd i j = false)
    (ht : 0 < p.tanAlt) (hcx : 0 < p.cellx) (hcy : 0 < p.celly)
    (hfloor : epsOf p.cellx p.celly ≤ h + 10 ^ 38)
    (hgap : ∀ s ∈ intRange (sIdxMin p) (sIdxMax p), ∀ c1 ∈ stripCells p s,
        ∀ c2 ∈ stripCells p s, c1.2 ≠ c2.2 →
          epsOf p.cellx p.celly ≤ p.tanAlt * |c1.1 - c2.1|) :
    ∀ i j, mget (computeShadowMask p octants 0 edge gapMax false fatK) i j
      = false := by
  have he : 0 ≤ epsOf p.cellx p.celly := le_of_lt (epsOf_pos hcx hcy)
  have hstrip : ∀ s ∈ intRange (sIdxMin p) (sIdxMax p), ∀ m,
      (∀ x y, mget m x y = false) →
      ∀ x y, mget (processStrip p gapMax 0 m s) x y = false := by
    intro s hs m hm
    simp only [processStrip]
    split_ifs with hempty
    · exact hm
    refine gapFillStrip_allfalse _ _ _ ?_
    refine horizonLoop_allfalse _ _ _ _ _ _ _ hm he ?_ ?_
    · intro hlen
      have hmem : (sortCells (stripCells p s)).get ⟨0, hlen⟩ ∈ stripCells p s :=
        (sortCells_perm _).subset (List.get_mem _ _ _)
      obtain ⟨hi, hj, _, _, _⟩ := mem_stripCells hmem
      rw [headD_eq_get _ _ hlen, targetT, hflat _ _ hi hj, sub_self, mul_zero,
        add_zero, horizonInit]
      linarith
    · have hsorted := sortCells_sorted_L (stripCells p s)
      have hne : (sortCells (stripCells p s)).Pairwise fun a b => a.2 ≠ b.2 := by
        refine ((sortCells_perm (stripCells p s)).pairwise_iff ?_).mpr
          (stripCells_pairwise_ne p s)
        intro a b hab
        exact hab.symm
      refine List.Pairwise.chain' ?_
      refine (hsorted.and hne).imp_of_mem ?_
      intro a b ha hb hab
      have ha' : a ∈ stripCells p s := (sortCells_perm _).subset ha
      have hb' : b ∈ stripCells p s := (sortCells_perm _).subset hb
      obtain ⟨hia, hja, _, _, _⟩ := mem_stripCells ha'
      obtain ⟨hib, hjb, _, _, _⟩ := mem_stripCells hb'
      have hg := hgap s hs a ha' b hb' hab.2
      rw [abs_sub_comm, abs_of_nonneg (sub_nonneg.mpr hab.1)] at hg
      rw [targetT, targetT, hflat _ _ hia hja, hflat _ _ hib hjb]
      have hring : p.tanAlt * (b.1 - ((sortCells (stripCells p s)).headD (0,0,0)).1)
          - p.tanAlt * (a.1 - ((sortCells (stripCells p s)).headD (0,0,0)).1)
          = p.tanAlt * (b.1 - a.1) := by ring
      linarith
  have hraw : ∀ x y, mget (rawScan p gapMax 0) x y = false := by
    rw [rawScan]
    have main : ∀ (l : List ℤ),
        (∀ s ∈ l, s ∈ intRange (sIdxMin p) (sIdxMax p)) →
        ∀ m, (∀ x y, mget m x y = false) →
        ∀ x y, mget (l.foldl (processStrip p gapMax 0) m) x y = false := by
      intro l
      induction l with
      | nil => exact fun _ m hm => hm
      | cons s t IH =>
        intro hsub m hm
        rw [List.foldl_cons]
        exact IH (fun s' hs' => hsub s' (List.mem_cons_of_mem _ hs'))
          _ (hstrip s (hsub s (List.mem_cons_self _ _)) m hm)
    exact main _ (fun s hs => hs) _ (fun x y => mget_mkMask _ _ _ _)
  have hm1 : ∀ x y, mget (mtab p.ny p.nx fun a b =>
      !p.nd a b && mget (rawScan p gapMax 0) a b) x y = false := by
    intro x y
    rw [mget_mtab]
    split_ifs with hin
    · rw [hraw]
      simp
    · rfl
  intro i j
  simp only [computeShadowMask, Bool.false_eq_true, if_false]
  exact mclose_allfalse p.ny p.nx _ hm1 i j

/-! ## The 3x3 dilation as Chebyshev-neighbourhood reachability -/

theorem offsets3_bound : ∀ o ∈ offsets 3, -1 ≤ o.1 ∧ o.1 ≤ 1 ∧ -1 ≤ o.2 ∧ o.2 ≤ 1 := by
  decide

theorem dilateF3_true_iff (ny nx : ℕ) (f : ℕ → ℕ → Bool) (i j : ℕ) :
    dilateF ny nx 3 f i j = true ↔
      ∃ a b, a < ny ∧ b < nx ∧ adjIdx i a ∧ adjIdx j b ∧ f a b = true := by
  rw [dilateF, List.any_eq_true]
  constructor
  · rintro ⟨o, ho, hpad⟩
    obtain ⟨hb1, hb2, hb3, hb4⟩ := offsets3_bound o ho
    rw [getPad] at hpad
    split_ifs at hpad with hc
    · refine ⟨((i : ℤ) + o.1).toNat, ((j : ℤ) + o.2).toNat, by omega, by omega,
        ⟨by omega, by omega⟩, ⟨by omega, by omega⟩, hpad⟩
  · rintro ⟨a, b, ha, hb, hia, hjb, hf⟩
    refine ⟨((a : ℤ) - i, (b : ℤ) - j), ?_, ?_⟩
    · obtain ⟨h1, h2⟩ := hia
      obtain ⟨h3, h4⟩ := hjb
      simp only [offsets, if_neg (by omega : ¬(3 = 2)), List.mem_cons,
        List.mem_singleton, Prod.mk.injEq]
      omega
    · rw [getPad]
      rw [if_pos (by omega : 0 ≤ (i : ℤ) + ((a : ℤ) - i) ∧
        (i : ℤ) + ((a : ℤ) - i) < (ny : ℤ) ∧ 0 ≤ (j : ℤ) + ((b : ℤ) - j) ∧
        (j : ℤ) + ((b : ℤ) - j) < (nx : ℤ))]
      have e1 : ((i : ℤ) + ((a : ℤ) - i)).toNat = a := by omega
      have e2 : ((j : ℤ) + ((b : ℤ) - j)).toNat = b := by omega
      rw [e1, e2]
      exact hf

theorem erode3_true_iff (ny nx : ℕ) (g : ℕ → ℕ → Bool) (i j : ℕ) :
    (!dilateF ny nx 3 (fun a b => !g a b) i j) = true ↔
      ∀ a b, a < ny → b < nx → adjIdx i a → adjIdx j b → g a b = true := by
  constructor
  · intro h a b ha hb hia hjb
    by_contra hg
    rw [Bool.not_eq_true] at hg
    have hd : dilateF ny nx 3 (fun a b => !g a b) i j = true :=
      (dilateF3_true_iff ny nx _ i j).mpr
        ⟨a, b, ha, hb, hia, hjb, by rw [hg]; rfl⟩
    rw [hd] at h
    exact absurd h (by simp)
  · intro hall
    rw [Bool.not_eq_true']
    by_contra hd
    rw [Bool.not_eq_false] at hd
    obtain ⟨a, b, ha, hb, hia, hjb, hgb⟩ := (dilateF3_true_iff ny nx _ i j).mp hd
    rw [hall a b ha hb hia hjb] at hgb
    cases hgb

theorem mtab_congr (ny nx : ℕ) (f g : ℕ → ℕ → Bool)
    (h : ∀ i j, i < ny → j < nx → f i j = g i j) :
    mtab ny nx f = mtab ny nx g := by
  rw [mtab, mtab]
  refine List.map_congr_left ?_
  intro i hi
  refine List.map_congr_left ?_
  intro j hj
  exact h i j (List.mem_range.mp hi) (List.mem_range.mp hj)

theorem mget_mclose_true_iff (ny nx : ℕ) (m : List (List Bool)) (i j : ℕ)
    (hi : i < ny) (hj : j < nx) :
    mget (mclose ny nx m) i j = true ↔
      ∀ a b, a < ny → b < nx → adjIdx i a → adjIdx j b →
        dilateF ny nx 3 (mget m) a b = true := by
  simp only [mclose]
  rw [mget_mtab, if_pos ⟨hi, hj⟩, erode3_true_iff]
  constructor
  · intro hall a b ha hb hia hjb
    have := hall a b ha hb hia hjb
    rwa [mget_mtab, if_pos ⟨ha, hb⟩] at this
  · intro hall a b ha hb hia hjb
    rw [mget_mtab, if_pos ⟨ha, hb⟩]
    exact hall a b ha hb hia hjb

theorem adjIdx_refl (x : ℕ) : adjIdx x x := ⟨by omega, by omega⟩

theorem adjIdx_symm {x y : ℕ} (h : adjIdx x y) : adjIdx y x := ⟨h.2, h.1⟩

/-- Closing is extensive on the grid. -/
theorem mget_mclose_of_mget (ny nx : ℕ) (m : List (List Bool)) (i j : ℕ)
    (hi : i < ny) (hj : j < nx) (hm : mget m i j = true) :
    mget (mclose ny nx m) i j = true := by
  rw [mget_mclose_true_iff ny nx m i j hi hj]
  intro a b ha hb hia hjb
  exact (dilateF3_true_iff ny nx _ a b).mpr
    ⟨i, j, hi, hj, adjIdx_symm hia, adjIdx_symm hjb, hm⟩

/-- The dilation of the closing agrees with the dilation of the original on
the grid (the adjunction collapse `D E D = D`). -/
theorem dilateF_mclose_eq (ny nx : ℕ) (m : List (List Bool)) (a b : ℕ)
    (ha : a < ny) (hb : b < nx) :
    dilateF ny nx 3 (mget (mclose ny nx m)) a b =
      dilateF ny nx 3 (mget m) a b := by
  rw [Bool.eq_iff_iff, dilateF3_true_iff, dilateF3_true_iff]
  constructor
  · rintro ⟨c, d, hc, hd, hac, hbd, hcd⟩
    exact (dilateF3_true_iff ny nx (mget m) a b).mp
      ((mget_mclose_true_iff ny nx m c d hc hd).mp hcd a b ha hb
        (adjIdx_symm hac) (adjIdx_symm hbd))
  · rintro ⟨c, d, hc, hd, hac, hbd, hcd⟩
    exact ⟨c, d, hc, hd, hac, hbd, mget_mclose_of_mget ny nx m c d hc hd hcd⟩

theorem mask_ext {ny nx : ℕ} {m1 m2 : List (List Bool)}
    (h1 : MaskShape ny nx m1) (h2 : MaskShape ny nx m2)
    (h : ∀ i j, i < ny → j < nx → mget m1 i j = mget m2 i j) : m1 = m2 := by
  apply List.ext_getElem (by rw [h1.1, h2.1])
  intro i hi1 hi2
  apply List.ext_getElem
  · rw [h1.2 _ (List.getElem_mem hi1), h2.2 _ (List.getElem_mem hi2)]
  intro j hj1 hj2
  have hi : i < ny := h1.1 ▸ hi1
  have hj : j < nx := h1.2 _ (List.getElem_mem hi1) ▸ hj1
  have e1 : mget m1 i j = m1[i][j] := by
    rw [mget, List.getD_eq_getElem?_getD m1 i, List.getElem?_eq_getElem hi1,
      Option.getD_some, List.getD_eq_getElem?_getD, List.getElem?_eq_getElem hj1,
      Option.getD_some]
  have e2 : mget m2 i j = m2[i][j] := by
    rw [mget, List.getD_eq_getElem?_getD m2 i, List.getElem?_eq_getElem hi2,
      Option.getD_some, List.getD_eq_getElem?_getD, List.getElem?_eq_getElem hj2,
      Option.getD_some]
  rw [← e1, ← e2]
  exact h i j hi hj

theorem maskShape_mclose (ny nx : ℕ) (m : List (List Bool)) :
    MaskShape ny nx (mclose ny nx m) := by
  simp only [mclose]
  exact maskShape_mtab _ _ _

/-- C8: gap-closing idempotence.  The 2D binary closing of the source — a
3x3 dilation followed by the erosion realised as the complement of a 3x3
dilation of the complement, with false-padding at the border — applied twice
is the same array as applied once. -/
theorem c8_closing_idempotent (ny nx : ℕ) (m : List (List Bool)) :
    mclose ny nx (mclose ny nx m) = mclose ny nx m := by
  have key : ∀ i j, i < ny → j < nx →
      mget (mclose ny nx (mclose ny nx m)) i j = mget (mclose ny nx m) i j := by
    intro i j hi hj
    rw [Bool.eq_iff_iff, mget_mclose_true_iff ny nx _ i j hi hj,
      mget_mclose_true_iff ny nx m i j hi hj]
    constructor
    · intro hall a b ha hb hia hjb
      rw [← dilateF_mclose_eq ny nx m a b ha hb]
      exact hall a b ha hb hia hjb
    · intro hall a b ha hb hia hjb
      rw [dilateF_mclose_eq ny nx m a b ha hb]
      exact hall a b ha hb hia hjb
  exact mask_ext (maskShape_mclose ny nx _) (maskShape_mclose ny nx _) key

/-! ## Strip geometry inequalities (for the partition invariant) -/

theorem qmk_eq (n : ℤ) (d : ℕ) : mkRat n d = (n : ℚ) / (d : ℚ) := by
  rw [Rat.mkRat_eq_divInt, Rat.divInt_eq_div]
  norm_num

theorem dirEps_pos : 0 < dirEps := by
  rw [dirEps, qmk_eq]
  positivity

theorem snap_cases (q : ℚ) : snap q = 0 ∨ dirEps ≤ |snap q| := by
  rw [snap]
  split_ifs with h
  · exact Or.inl rfl
  · exact Or.inr (not_lt.mp h)

theorem dScol_cases (p : ScanParams) : dScol p = 0 ∨ dirEps ≤ |dScol p| := by
  rw [dScol]
  exact snap_cases _

theorem dSrow_cases (p : ScanParams) : dSrow p = 0 ∨ dirEps ≤ |dSrow p| := by
  rw [dSrow]
  exact snap_cases _

theorem stripW_pos (p : ScanParams) : 0 < stripW p := by
  rw [stripW]
  split_ifs <;>
    first
      | exact dirEps_pos
      | exact lt_of_lt_of_le dirEps_pos (le_max_left _ _)

theorem stripW_le_abs_dScol (p : ScanParams) (h : dScol p ≠ 0) :
    stripW p ≤ |dScol p| := by
  have hge : dirEps ≤ |dScol p| := (dScol_cases p).resolve_left h
  rw [stripW, if_neg h]
  split_ifs
  · exact max_le hge (le_refl _)
  · exact max_le hge (min_le_left _ _)

theorem stripW_le_abs_dSrow (p : ScanParams) (h : dSrow p ≠ 0) :
    stripW p ≤ |dSrow p| := by
  have hge : dirEps ≤ |dSrow p| := (dSrow_cases p).resolve_left h
  rw [stripW]
  by_cases h1 : dScol p = 0
  · rw [if_pos h1, if_neg h]
    exact max_le hge (le_refl _)
  · rw [if_neg h1, if_neg h]
    exact max_le hge (min_le_right _ _)

theorem pyRound_bounds (q : ℚ) :
    q - 1 / 2 ≤ (pyRound q : ℚ) ∧ (pyRound q : ℚ) ≤ q + 1 / 2 := by
  have hfl : (⌊q⌋ : ℚ) ≤ q := Int.floor_le q
  have hfu : q < ⌊q⌋ + 1 := Int.lt_floor_add_one q
  have hhalf : (mkRat 1 2 : ℚ) = 1 / 2 := by rw [qmk_eq]; norm_num
  simp only [pyRound]
  split_ifs with h1 h2 h3 <;>
    [skip; skip; skip; skip] <;>
    rw [hhalf] at * <;> push_cast <;> constructor <;> linarith

theorem term_lower (x n d : ℚ) (hx : 0 ≤ x) (hxn : x ≤ n) :
    min 0 (n * d) ≤ x * d := by
  rcases le_or_lt 0 d with hd | hd
  · exact le_trans (min_le_left _ _) (by positivity)
  · refine le_trans (min_le_right _ _) ?_
    nlinarith

theorem term_upper (x n d : ℚ) (hx : 0 ≤ x) (hxn : x ≤ n) :
    x * d ≤ max 0 (n * d) := by
  rcases le_or_lt 0 d with hd | hd
  · exact le_trans (by nlinarith) (le_max_right _ _)
  · exact le_trans (by nlinarith) (le_max_left _ _)

theorem min4_eq (A B : ℚ) :
    min (min (min 0 B) A) (A + B) = min 0 A + min 0 B := by
  simp only [min_def]
  split_ifs <;> linarith

theorem max4_eq (A B : ℚ) :
    max (max (max 0 B) A) (A + B) = max 0 A + max 0 B := by
  simp only [max_def]
  split_ifs <;> linarith

theorem cellS_between (p : ScanParams) (i j : ℕ) (hi : i < p.ny)
    (hj : j < p.nx) :
    sMinQ p ≤ cellS p i j ∧ cellS p i j ≤ sMaxQ p := by
  have e00 : cellS p 0 0 = 0 := by rw [cellS]; norm_num
  have e01 : cellS p 0 (p.nx - 1) = ((p.nx - 1 : ℕ) : ℚ) * dScol p := by
    rw [cellS]; norm_num
  have e10 : cellS p (p.ny - 1) 0 = ((p.ny - 1 : ℕ) : ℚ) * dSrow p := by
    rw [cellS]; norm_num
  have e11 : cellS p (p.ny - 1) (p.nx - 1) =
      ((p.ny - 1 : ℕ) : ℚ) * dSrow p + ((p.nx - 1 : ℕ) : ℚ) * dScol p := by
    rw [cellS]
  have hmin : sMinQ p = min (min (min (cellS p 0 0) (cellS p 0 (p.nx - 1)))
      (cellS p (p.ny - 1) 0)) (cellS p (p.ny - 1) (p.nx - 1)) := rfl
  have hmax : sMaxQ p = max (max (max (cellS p 0 0) (cellS p 0 (p.nx - 1)))
      (cellS p (p.ny - 1) 0)) (cellS p (p.ny - 1) (p.nx - 1)) := rfl
  have hci : (i : ℚ) ≤ ((p.ny - 1 : ℕ) : ℚ) := by
    have : i ≤ p.ny - 1 := by omega
    exact_mod_cast this
  have hcj : (j : ℚ) ≤ ((p.nx - 1 : ℕ) : ℚ) := by
    have : j ≤ p.nx - 1 := by omega
    exact_mod_cast this
  have hi0 : (0 : ℚ) ≤ (i : ℚ) := by positivity
  have hj0 : (0 : ℚ) ≤ (j : ℚ) := by positivity
  constructor
  · rw [hmin, e00, e01, e10, e11, min4_eq, cellS]
    have t1 := term_lower (i : ℚ) ((p.ny - 1 : ℕ) : ℚ) (dSrow p) hi0 hci
    have t2 := term_lower (j : ℚ) ((p.nx - 1 : ℕ) : ℚ) (dScol p) hj0 hcj
    linarith
  · rw [hmax, e00, e01, e10, e11, max4_eq, cellS]
    have t1 := term_upper (i : ℚ) ((p.ny - 1 : ℕ) : ℚ) (dSrow p) hi0 hci
    have t2 := term_upper (j : ℚ) ((p.nx - 1 : ℕ) : ℚ) (dScol p) hj0 hcj
    linarith

/-- The column-window branch of `rowWindow` (direction has a usable column
increment). -/
theorem rowWindow_wide (p : ScanParams) (sT hW : ℚ) (i : ℕ)
    (h : dirEps < |dScol p|) :
    rowWindow p sT hW i =
      intRange (max 0 ⌊qdiv (sT - (i : ℚ) * dSrow p) (dScol p) - 1⌋)
        (min ((p.nx : ℤ) - 1) ⌈qdiv (sT - (i : ℚ) * dSrow p) (dScol p) + 1⌉) := by
  unfold rowWindow
  rw [if_pos h]

/-- The full-row branch of `rowWindow` (no usable column increment and the
row's `S` is not pre-rejected). -/
theorem rowWindow_full (p : ScanParams) (sT hW : ℚ) (i : ℕ)
    (h : ¬ dirEps < |dScol p|) (h2 : ¬ hW < |(i : ℚ) * dSrow p - sT|) :
    rowWindow p sT hW i = intRange 0 ((p.nx : ℤ) - 1) := by
  unfold rowWindow
  rw [if_neg h, if_neg h2]

/-- Window capture: a cell satisfying the half-width inequality is found by
the per-row column window, provided the column increment is either zero or
strictly above `dir_eps` (the amendment's proviso). -/
theorem stripCells_mem_intro (p : ScanParams) (s : ℤ) (i j : ℕ)
    (hi : i < p.ny) (hj : j < p.nx) (hnd : p.nd i j = false)
    (hcol : dScol p = 0 ∨ dirEps < |dScol p|)
    (hS : |cellS p i j - (s : ℚ) * stripW p| ≤ mkRat 1 2 * stripW p) :
    (cellL p i j, i, j) ∈ stripCells p s := by
  have hhalf : (mkRat 1 2 : ℚ) = 1 / 2 := by rw [qmk_eq]; norm_num
  have hw := stripW_pos p
  simp only [stripCells]
  refine List.mem_flatMap.mpr ⟨i, List.mem_range.mpr hi, ?_⟩
  refine List.mem_filterMap.mpr ⟨(j : ℤ), ?_, ?_⟩
  · rcases hcol with hc0 | hcpos
    · have hSrow : cellS p i j = (i : ℚ) * dSrow p := by
        rw [cellS, hc0, mul_zero, add_zero]
      rw [rowWindow_full p _ _ i
        (by rw [hc0, abs_zero]; exact not_lt.mpr (le_of_lt dirEps_pos))
        (not_lt.mpr (by rw [← hSrow]; exact hS))]
      exact mem_intRange.mpr ⟨by omega, by omega⟩
    · have hcne : dScol p ≠ 0 := by
        intro h0
        rw [h0, abs_zero] at hcpos
        exact absurd hcpos (not_lt.mpr (le_of_lt dirEps_pos))
      have habs : (0 : ℚ) < |dScol p| := abs_pos.mpr hcne
      have hwle := stripW_le_abs_dScol p hcne
      rw [rowWindow_wide p _ _ i hcpos]
      set jstar := qdiv ((s : ℚ) * stripW p - (i : ℚ) * dSrow p) (dScol p)
        with hjstar
      have hdist : |(j : ℚ) - jstar| ≤ 1 / 2 := by
        have hrw : (j : ℚ) - jstar
            = (cellS p i j - (s : ℚ) * stripW p) / dScol p := by
          rw [hjstar, qdiv_eq_div, cellS, eq_div_iff hcne, sub_mul,
            div_mul_cancel₀ _ hcne]
          ring
        rw [hrw, abs_div, div_le_iff habs]
        calc |cellS p i j - (s : ℚ) * stripW p| ≤ mkRat 1 2 * stripW p := hS
        _ = 1 / 2 * stripW p := by rw [hhalf]
        _ ≤ 1 / 2 * |dScol p| := by linarith
      have habs1 : jstar - 1 / 2 ≤ (j : ℚ) := by
        have h2 := (abs_le.mp hdist).1
        linarith
      have habs2 : (j : ℚ) ≤ jstar + 1 / 2 := by
        have h2 := (abs_le.mp hdist).2
        linarith
      refine mem_intRange.mpr ⟨max_le (by omega) ?_, le_min (by omega) ?_⟩
      · have h1 : ((⌊jstar - 1⌋ : ℤ) : ℚ) ≤ ((j : ℤ) : ℚ) := by
          have h2 := Int.floor_le (jstar - 1)
          push_cast
          linarith
        exact_mod_cast h1
      · have h1 : (((j : ℕ) : ℤ) : ℚ) ≤ ((⌈jstar + 1⌉ : ℤ) : ℚ) := by
          have h2 := Int.le_ceil (jstar + 1)
          push_cast
          linarith
        exact_mod_cast h1
  · show stripCellAt p _ _ i (j : ℤ) = some (cellL p i j, i, j)
    unfold stripCellAt
    rw [if_pos (show (0 : ℤ) ≤ (j : ℤ) ∧ (j : ℤ) < (p.nx : ℤ)
      from ⟨by omega, by omega⟩)]
    show (if |cellS p i j - (s : ℚ) * stripW p| ≤ mkRat 1 2 * stripW p
          ∧ ¬ p.nd i j = true
        then some (cellL p i j, i, j) else none) = some (cellL p i j, i, j)
    rw [if_pos ⟨hS, by rw [hnd]; simp⟩]

/-- C5 (amended): with the provisos that the direction is non-degenerate
(not both snapped increments zero: there the source's `strip_w` is `inf` and
every cell is collected by the two non-adjacent strips `-1` and `+1`, outside
this embedding's `stripW`) and that the snapped column increment is zero or
strictly above `dir_eps`, the strip collection realises the centre-width
binning exactly: a non-nodata cell is collected by strip `s` iff
`|S - s*strip_w| <= strip_w/2`; some strip in the corner-derived index range
collects it; and two strips collecting the same cell are equal or adjacent
with the cell exactly at the shared half-width boundary. -/
theorem c5_strip_partition (p : ScanParams)
    (hcol : dScol p = 0 ∨ dirEps < |dScol p|)
    (hndeg : ¬(dScol p = 0 ∧ dSrow p = 0))
    (i j : ℕ) (hi : i < p.ny) (hj : j < p.nx) (hnd : p.nd i j = false) :
    (∀ s : ℤ,
      ((∃ c ∈ stripCells p s, c.2 = (i, j)) ↔
        |cellS p i j - (s : ℚ) * stripW p| ≤ mkRat 1 2 * stripW p)) ∧
    (∃ s : ℤ, sIdxMin p ≤ s ∧ s ≤ sIdxMax p ∧
      ∃ c ∈ stripCells p s, c.2 = (i, j)) ∧
    (∀ s t : ℤ, (∃ c ∈ stripCells p s, c.2 = (i, j)) →
      (∃ c ∈ stripCells p t, c.2 = (i, j)) →
      s = t ∨ ((s - t).natAbs = 1 ∧
        |cellS p i j - (s : ℚ) * stripW p| = mkRat 1 2 * stripW p ∧
        |cellS p i j - (t : ℚ) * stripW p| = mkRat 1 2 * stripW p)) := by
  have hw := stripW_pos p
  have hwne : stripW p ≠ 0 := ne_of_gt hw
  have hhalf : (mkRat 1 2 : ℚ) = 1 / 2 := by rw [qmk_eq]; norm_num
  have hiff : ∀ s : ℤ,
      ((∃ c ∈ stripCells p s, c.2 = (i, j)) ↔
        |cellS p i j - (s : ℚ) * stripW p| ≤ mkRat 1 2 * stripW p) := by
    intro s
    constructor
    · rintro ⟨c, hc, hpos⟩
      have h := mem_stripCells hc
      have h1 : c.2.1 = i := by rw [hpos]
      have h2 : c.2.2 = j := by rw [hpos]
      rw [h1, h2] at h
      exact h.2.2.2.2
    · intro hS
      exact ⟨(cellL p i j, i, j),
        stripCells_mem_intro p s i j hi hj hnd hcol hS, rfl⟩
  refine ⟨hiff, ?_, ?_⟩
  · -- coverage: the rounded strip index collects the cell and lies in range
    have hq : qdiv (cellS p i j) (stripW p) = cellS p i j / stripW p :=
      qdiv_eq_div _ _
    have hb := pyRound_bounds (qdiv (cellS p i j) (stripW p))
    refine ⟨pyRound (qdiv (cellS p i j) (stripW p)), ?_, ?_, (hiff _).mpr ?_⟩
    · -- sIdxMin <= s*
      have hbm := pyRound_bounds (qdiv (sMinQ p) (stripW p))
      have hSm : sMinQ p ≤ cellS p i j := (cellS_between p i j hi hj).1
      have hdivle : qdiv (sMinQ p) (stripW p) ≤
          qdiv (cellS p i j) (stripW p) := by
        rw [qdiv_eq_div, qdiv_eq_div]
        exact div_le_div_of_nonneg_right hSm (le_of_lt hw)
      have hZ : (pyRound (qdiv (sMinQ p) (stripW p)) : ℚ) ≤
          (pyRound (qdiv (cellS p i j) (stripW p)) : ℚ) + 1 := by
        linarith [hbm.2, hb.1]
      have hZi : pyRound (qdiv (sMinQ p) (stripW p)) ≤
          pyRound (qdiv (cellS p i j) (stripW p)) + 1 := by exact_mod_cast hZ
      rw [sIdxMin]
      omega
    · -- s* <= sIdxMax
      have hbM := pyRound_bounds (qdiv (sMaxQ p) (stripW p))
      have hSM : cellS p i j ≤ sMaxQ p := (cellS_between p i j hi hj).2
      have hdivle : qdiv (cellS p i j) (stripW p) ≤
          qdiv (sMaxQ p) (stripW p) := by
        rw [qdiv_eq_div, qdiv_eq_div]
        exact div_le_div_of_nonneg_right hSM (le_of_lt hw)
      have hZ : (pyRound (qdiv (cellS p i j) (stripW p)) : ℚ) ≤
          (pyRound (qdiv (sMaxQ p) (stripW p)) : ℚ) + 1 := by
        linarith [hb.2, hbM.1]
      have hZi : pyRound (qdiv (cellS p i j) (stripW p)) ≤
          pyRound (qdiv (sMaxQ p) (stripW p)) + 1 := by exact_mod_cast hZ
      rw [sIdxMax]
      omega
    · -- |S - s* w| <= w/2
      have hqw : qdiv (cellS p i j) (stripW p) * stripW p = cellS p i j := by
        rw [hq]
        exact div_mul_cancel₀ _ hwne
      have habs : |cellS p i j -
          (pyRound (qdiv (cellS p i j) (stripW p)) : ℚ) * stripW p| =
          |qdiv (cellS p i j) (stripW p) -
            (pyRound (qdiv (cellS p i j) (stripW p)) : ℚ)| * stripW p := by
        rw [← hqw, ← sub_mul, abs_mul, abs_of_pos hw, hqw]
      rw [habs, hhalf]
      have h2 : |qdiv (cellS p i j) (stripW p) -
          (pyRound (qdiv (cellS p i j) (stripW p)) : ℚ)| ≤ 1 / 2 :=
        abs_le.mpr ⟨by linarith [hb.2], by linarith [hb.1]⟩
      nlinarith
  · -- at most two adjacent strips, only at an exact half-width tie
    intro s t hs ht
    have h1 := (hiff s).mp hs
    have h2 := (hiff t).mp ht
    rw [hhalf] at h1 h2
    by_cases heq : s = t
    · exact Or.inl heq
    · have hcalc : |(s : ℚ) - (t : ℚ)| * stripW p ≤ stripW p := by
        calc |(s : ℚ) - (t : ℚ)| * stripW p
            = |(s : ℚ) * stripW p - (t : ℚ) * stripW p| := by
              rw [← sub_mul, abs_mul, abs_of_pos hw]
        _ ≤ |(s : ℚ) * stripW p - cellS p i j| +
              |cellS p i j - (t : ℚ) * stripW p| :=
            abs_sub_le _ _ _
        _ = |cellS p i j - (s : ℚ) * stripW p| +
              |cellS p i j - (t : ℚ) * stripW p| := by rw [abs_sub_comm]
        _ ≤ 1 / 2 * stripW p + 1 / 2 * stripW p := add_le_add h1 h2
        _ = stripW p := by ring
      have hle1 : |(s : ℚ) - (t : ℚ)| ≤ 1 := by
        by_contra hgt
        push_neg at hgt
        nlinarith
      have hnle : (s - t).natAbs ≤ 1 := by
        have hc : |((s - t : ℤ) : ℚ)| ≤ 1 := by push_cast; exact hle1
        have hz : |s - t| ≤ (1 : ℤ) := by exact_mod_cast hc
        rw [Int.abs_eq_natAbs] at hz
        omega
      have hne1 : (s - t).natAbs = 1 := by omega
      have heqabs : |(s : ℚ) - (t : ℚ)| = 1 := by
        have hz : |s - t| = (1 : ℤ) := by
          rw [Int.abs_eq_natAbs, hne1]
          norm_num
        have hcq : |((s - t : ℤ) : ℚ)| = 1 := by
          rw [← Int.cast_abs, hz]
          norm_num
        push_cast at hcq
        exact hcq
      have htr : stripW p ≤ |cellS p i j - (s : ℚ) * stripW p| +
          |cellS p i j - (t : ℚ) * stripW p| := by
        have hst : |(s : ℚ) * stripW p - (t : ℚ) * stripW p| = stripW p := by
          rw [← sub_mul, abs_mul, abs_of_pos hw, heqabs, one_mul]
        calc stripW p = |(s : ℚ) * stripW p - (t : ℚ) * stripW p| := hst.symm
        _ ≤ |(s : ℚ) * stripW p - cellS p i j| +
              |cellS p i j - (t : ℚ) * stripW p| := abs_sub_le _ _ _
        _ = |cellS p i j - (s : ℚ) * stripW p| +
              |cellS p i j - (t : ℚ) * stripW p| := by rw [abs_sub_comm]
      refine Or.inr ⟨hne1, ?_, ?_⟩ <;> rw [hhalf] <;> linarith

/-! ## Height congruence: the scan reads heights only at non-nodata cells -/

theorem horizonLoop_congrZ (Z Z' : ℕ → ℕ → ℚ) (t e L0 maxd : ℚ)
    (cs : List Cell) (h0 : ℚ) (m : List (List Bool))
    (hZ : ∀ c ∈ cs, Z c.2.1 c.2.2 = Z' c.2.1 c.2.2) :
    horizonLoop Z t e L0 maxd cs h0 m = horizonLoop Z' t e L0 maxd cs h0 m := by
  induction cs generalizing h0 m with
  | nil => rfl
  | cons c rest IH =>
    have hT : targetT Z t L0 c = targetT Z' t L0 c := by
      rw [targetT, targetT, hZ c (List.mem_cons_self _ _)]
    simp only [horizonLoop, hT]
    split_ifs
    all_goals first
      | rfl
      | exact IH _ _ fun d hd => hZ d (List.mem_cons_of_mem _ hd)

theorem processStrip_congrZ (p : ScanParams) (Z' : ℕ → ℕ → ℚ) (g : ℕ)
    (maxd : ℚ) (m : List (List Bool)) (s : ℤ)
    (hagree : ∀ i j, p.nd i j = false → p.Z i j = Z' i j) :
    processStrip p g maxd m s = processStrip {p with Z := Z'} g maxd m s := by
  have hcells : stripCells {p with Z := Z'} s = stripCells p s := rfl
  simp only [processStrip, hcells]
  split_ifs with hempty
  · rfl
  have hZ : ∀ c ∈ sortCells (stripCells p s),
      p.Z c.2.1 c.2.2 = Z' c.2.1 c.2.2 := by
    intro c hc
    have hc' : c ∈ stripCells p s := (sortCells_perm _).subset hc
    obtain ⟨_, _, hnd, _, _⟩ := mem_stripCells hc'
    exact hagree _ _ hnd
  rw [horizonLoop_congrZ p.Z Z' _ _ _ _ _ _ _ hZ]

theorem computeShadowMask_congrZ (p : ScanParams) (Z' : ℕ → ℕ → ℚ)
    (octants : ℕ) (maxd edge : ℚ) (gapMax fatK : ℕ) (fat : Bool)
    (hagree : ∀ i j, p.nd i j = false → p.Z i j = Z' i j) :
    computeShadowMask p octants maxd edge gapMax fat fatK =
      computeShadowMask {p with Z := Z'} octants maxd edge gapMax fat fatK := by
  have hraw : rawScan p gapMax maxd = rawScan {p with Z := Z'} gapMax maxd := by
    rw [rawScan, rawScan]
    have hrange : intRange (sIdxMin {p with Z := Z'}) (sIdxMax {p with Z := Z'}) =
        intRange (sIdxMin p) (sIdxMax p) := rfl
    rw [hrange]
    have hfold : ∀ (l : List ℤ) (m : List (List Bool)),
        l.foldl (processStrip p gapMax maxd) m =
          l.foldl (processStrip {p with Z := Z'} gapMax maxd) m := by
      intro l
      induction l with
      | nil => intro m; rfl
      | cons s t IH =>
        intro m
        rw [List.foldl_cons, List.foldl_cons,
          processStrip_congrZ p Z' gapMax maxd m s hagree, IH]
    exact hfold _ _
  simp only [computeShadowMask]
  rw [hraw]

/-- C3 (amended): nodata containment as the code actually guarantees it.
The mask handed to the writer may mark nodata cells (see the
counterexample), but (i) the writer maps every nodata cell to the nodata
sentinel in the output raster regardless of the mask, and (ii) the internal
scan never reads a nodata cell's height: masks computed from two height
rasters that agree outside the nodata set are identical, so nodata cells
act neither as occluders nor as occluded cells. -/
theorem c3_nodata_contained (p : ScanParams) (Z' : ℕ → ℕ → ℚ)
    (nodata c : ℚ) (shadow : List (List Bool)) (octants : ℕ) (maxd edge : ℚ)
    (gapMax fatK : ℕ) (fat : Bool)
    (hagree : ∀ i j, p.nd i j = false → p.Z i j = Z' i j) :
    (∀ i j, p.nd i j = true →
      writeShadowMask p.Z p.nd nodata shadow c i j = nodata) ∧
    computeShadowMask p octants maxd edge gapMax fat fatK =
      computeShadowMask {p with Z := Z'} octants maxd edge gapMax fat fatK := by
  refine ⟨fun i j h => ?_, computeShadowMask_congrZ p Z' octants maxd edge
    gapMax fatK fat hagree⟩
  simp [writeShadowMask, h]

/-! ## Altitude monotonicity (C6): raising the sun never adds shadow -/

theorem runMax_cons (Z : ℕ → ℕ → ℚ) (tanAlt L0 h0 : ℚ) (c : Cell)
    (cs : List Cell) :
    runMax Z tanAlt L0 h0 (c :: cs) =
      runMax Z tanAlt L0 (max h0 (targetT Z tanAlt L0 c)) cs := rfl

theorem lt_runMax_iff (Z : ℕ → ℕ → ℚ) (tanAlt L0 x : ℚ) (cs : List Cell)
    (h0 : ℚ) :
    x < runMax Z tanAlt L0 h0 cs ↔
      x < h0 ∨ ∃ c ∈ cs, x < targetT Z tanAlt L0 c := by
  induction cs generalizing h0 with
  | nil => simp [runMax]
  | cons c rest IH =>
    rw [runMax_cons, IH, lt_max_iff, List.exists_mem_cons_iff]
    tauto

theorem pairwise_take_get {α : Type} {R : α → α → Prop} (l : List α)
    (h : l.Pairwise R) (k : ℕ) (hk : k < l.length) :
    ∀ c ∈ l.take k, R c (l.get ⟨k, hk⟩) := by
  induction l generalizing k with
  | nil => exact absurd hk (by simp)
  | cons a l IH =>
    cases k with
    | zero => simp
    | succ k =>
      intro c hc
      rw [List.take_succ_cons] at hc
      have hk' : k < l.length := by simpa using hk
      have hget : (a :: l).get ⟨k + 1, hk⟩ = l.get ⟨k, hk'⟩ := rfl
      rw [hget]
      rcases List.mem_cons.mp hc with rfl | hc'
      · exact (List.pairwise_cons.mp h).1 _ (List.get_mem _ _ _)
      · exact IH (List.pairwise_cons.mp h).2 k hk' c hc'

theorem headD_le_of_sorted (l : List Cell)
    (hs : l.Pairwise fun a b => a.1 ≤ b.1) :
    ∀ c ∈ l, (l.headD (0, 0, 0)).1 ≤ c.1 := by
  cases l with
  | nil => intro c hc; exact absurd hc (List.not_mem_nil c)
  | cons a rest =>
    intro c hc
    rcases List.mem_cons.mp hc with rfl | hc'
    · exact le_refl _
    · exact (List.pairwise_cons.mp hs).1 c hc'

theorem targetT_lt_mono (Z : ℕ → ℕ → ℚ) (t1 t2 L0 eps : ℚ) (ht : t1 ≤ t2)
    (ck c : Cell) (hL : c.1 ≤ ck.1)
    (h : targetT Z t2 L0 ck - eps < targetT Z t2 L0 c) :
    targetT Z t1 L0 ck - eps < targetT Z t1 L0 c := by
  simp only [targetT] at h ⊢
  have e1 : t1 * (c.1 - L0) - t1 * (ck.1 - L0) = t1 * (c.1 - ck.1) := by ring
  have e2 : t2 * (c.1 - L0) - t2 * (ck.1 - L0) = t2 * (c.1 - ck.1) := by ring
  have e3 : t2 * (c.1 - ck.1) ≤ t1 * (c.1 - ck.1) :=
    mul_le_mul_of_nonpos_right ht (by linarith)
  linarith

theorem mark_antitone (Z : ℕ → ℕ → ℚ) (t1 t2 L0 eps h0 : ℚ) (ht : t1 ≤ t2)
    (scs : List Cell) (hsort : scs.Pairwise fun a b => a.1 ≤ b.1)
    (hL0 : ∀ c ∈ scs, L0 ≤ c.1) (k : ℕ) (hk : k < scs.length)
    (h : targetT Z t2 L0 (scs.get ⟨k, hk⟩) - eps <
      runMax Z t2 L0 h0 (scs.take k)) :
    targetT Z t1 L0 (scs.get ⟨k, hk⟩) - eps <
      runMax Z t1 L0 h0 (scs.take k) := by
  rw [lt_runMax_iff] at h ⊢
  rcases h with h | ⟨c, hc, h⟩
  · left
    have hLk : L0 ≤ (scs.get ⟨k, hk⟩).1 := hL0 _ (List.get_mem _ _ _)
    simp only [targetT] at h ⊢
    have e3 : t1 * ((scs.get ⟨k, hk⟩).1 - L0) ≤
        t2 * ((scs.get ⟨k, hk⟩).1 - L0) :=
      mul_le_mul_of_nonneg_right ht (by linarith)
    linarith
  · right
    refine ⟨c, hc, ?_⟩
    have hLc : c.1 ≤ (scs.get ⟨k, hk⟩).1 :=
      pairwise_take_get scs hsort k hk c hc
    exact targetT_lt_mono Z t1 t2 L0 eps ht _ c hLc h

theorem horizonLoop_mono (Z : ℕ → ℕ → ℚ) (t1 t2 eps L0 h0 : ℚ) (ht : t1 ≤ t2)
    (scs : List Cell) (hsort : scs.Pairwise fun a b => a.1 ≤ b.1)
    (hL0 : ∀ c ∈ scs, L0 ≤ c.1)
    (m1 m2 : List (List Bool)) (ny nx : ℕ)
    (hm1 : MaskShape ny nx m1) (hm2 : MaskShape ny nx m2)
    (hnd : (scs.map fun c => c.2).Nodup)
    (hgrid : ∀ c ∈ scs, c.2.1 < ny ∧ c.2.2 < nx)
    (hsub : ∀ x y, mget m2 x y = true → mget m1 x y = true)
    (x y : ℕ)
    (h : mget (horizonLoop Z t2 eps L0 0 scs h0 m2) x y = true) :
    mget (horizonLoop Z t1 eps L0 0 scs h0 m1) x y = true := by
  by_cases hpos : ∃ k : Fin scs.length, (scs.get k).2 = (x, y)
  · obtain ⟨⟨k, hk⟩, hkeq⟩ := hpos
    have hxe : (scs.get ⟨k, hk⟩).2.1 = x := by rw [hkeq]
    have hye : (scs.get ⟨k, hk⟩).2.2 = y := by rw [hkeq]
    have h2 := horizonLoop_mget Z t2 eps L0 scs h0 m2 ny nx hm2 hnd hgrid k hk
    have h1 := horizonLoop_mget Z t1 eps L0 scs h0 m1 ny nx hm1 hnd hgrid k hk
    rw [hxe, hye] at h2 h1
    rw [h2] at h
    rw [h1]
    rw [Bool.or_eq_true] at h ⊢
    rcases h with hm | hmark
    · exact Or.inl (hsub x y hm)
    · right
      rw [decide_eq_true_eq] at hmark ⊢
      exact mark_antitone Z t1 t2 L0 eps h0 ht scs hsort hL0 k hk hmark
  · have hnone : ∀ c ∈ scs, ¬(c.2.1 = x ∧ c.2.2 = y) := by
      intro c hc hcon
      obtain ⟨k, hkeq⟩ := List.mem_iff_get.mp hc
      exact hpos ⟨k, by rw [hkeq]; exact Prod.ext hcon.1 hcon.2⟩
    rw [horizonLoop_mget_notmem _ _ _ _ _ _ _ _ _ hnone] at h
    rw [horizonLoop_mget_notmem _ _ _ _ _ _ _ _ _ hnone]
    exact hsub x y h

theorem gapFilled_mono (v1 v2 : List Bool) (hlen : v1.length = v2.length)
    (hsub : ∀ k, v2.getD k false = true → v1.getD k false = true)
    (g k : ℕ) (h : gapFilled v2 g k = true) : gapFilled v1 g k = true := by
  rw [gapFilled, Bool.or_eq_true] at h
  rw [gapFilled, Bool.or_eq_true]
  by_cases hvk : v1.getD k false = true
  · exact Or.inl hvk
  rcases h with h | h
  · exact Or.inl (hsub k h)
  right
  rw [List.any_eq_true] at h
  obtain ⟨a, _, h⟩ := h
  rw [List.any_eq_true] at h
  obtain ⟨b, _, h⟩ := h
  rw [Bool.and_eq_true, Bool.and_eq_true] at h
  obtain ⟨⟨hak, hkb⟩, hrun⟩ := h
  rw [decide_eq_true_eq] at hak hkb
  simp only [isFillRun, Bool.and_eq_true, decide_eq_true_eq] at hrun
  obtain ⟨⟨⟨⟨⟨⟨h1a, hab⟩, hblen⟩, hbg⟩, hA⟩, hB⟩, _⟩ := hrun
  have hA1 : v1.getD (a - 1) false = true := hsub _ hA
  have hB1 : v1.getD (b + 1) false = true := hsub _ hB
  have hA2 : (fun u => v1.getD u false = true) (a - 1) := hA1
  have hj0ge : a - 1 ≤ Nat.findGreatest (fun u => v1.getD u false = true) k :=
    Nat.le_findGreatest (show a - 1 ≤ k by omega) hA2
  have hj0P : (fun u => v1.getD u false = true)
      (Nat.findGreatest (fun u => v1.getD u false = true) k) :=
    @Nat.findGreatest_spec (a - 1) (fun u => v1.getD u false = true) _ k
      (show a - 1 ≤ k by omega) hA2
  have hj0le : Nat.findGreatest (fun u => v1.getD u false = true) k ≤ k :=
    Nat.findGreatest_le k
  have hj0lt : Nat.findGreatest (fun u => v1.getD u false = true) k < k := by
    have hne : Nat.findGreatest (fun u => v1.getD u false = true) k ≠ k := by
      intro he
      exact hvk (he ▸ hj0P)
    omega
  have hmax : ∀ u, Nat.findGreatest (fun u => v1.getD u false = true) k < u →
      u ≤ k → v1.getD u false = false := by
    intro u hu1 hu2
    have hng := Nat.findGreatest_is_greatest hu1 hu2
    simpa using hng
  have hQ : ∃ u, v1.getD (k + 1 + u) false = true := by
    refine ⟨b - k, ?_⟩
    have he : k + 1 + (b - k) = b + 1 := by omega
    rw [he]
    exact hB1
  have hj1P : v1.getD (k + 1 + Nat.find hQ) false = true := Nat.find_spec hQ
  have hj1le : Nat.find hQ ≤ b - k := by
    refine Nat.find_min' hQ ?_
    have he : k + 1 + (b - k) = b + 1 := by omega
    rw [he]
    exact hB1
  have hj1min : ∀ u, u < Nat.find hQ → v1.getD (k + 1 + u) false = false := by
    intro u hu
    have hng := Nat.find_min hQ hu
    simpa using hng
  rw [List.any_eq_true]
  refine ⟨Nat.findGreatest (fun u => v1.getD u false = true) k + 1,
    List.mem_range.mpr (by omega), ?_⟩
  rw [List.any_eq_true]
  refine ⟨k + Nat.find hQ, List.mem_range.mpr (by omega), ?_⟩
  simp only [Bool.and_eq_true, decide_eq_true_eq, isFillRun, List.all_eq_true,
    List.mem_range, Bool.not_eq_true']
  refine ⟨⟨by omega, by omega⟩,
    ⟨⟨⟨⟨⟨⟨by omega, by omega⟩, by omega⟩, by omega⟩, ?_⟩, ?_⟩, ?_⟩⟩
  · have he : Nat.findGreatest (fun u => v1.getD u false = true) k + 1 - 1 =
        Nat.findGreatest (fun u => v1.getD u false = true) k := by omega
    rw [he]
    exact hj0P
  · have he : k + Nat.find hQ + 1 = k + 1 + Nat.find hQ := by omega
    rw [he]
    exact hj1P
  · intro t htlt
    by_cases hxk : Nat.findGreatest (fun u => v1.getD u false = true) k + 1 + t ≤ k
    · exact hmax _ (by omega) hxk
    · have he : Nat.findGreatest (fun u => v1.getD u false = true) k + 1 + t =
          k + 1 + (Nat.findGreatest (fun u => v1.getD u false = true) k + t - k) := by
        omega
      rw [he]
      exact hj1min _ (by omega)

theorem mget_mset_true_of (m : List (List Bool)) (i j x y : ℕ)
    (h : mget m x y = true) : mget (mset m i j true) x y = true := by
  rw [mget_mset]
  split_ifs
  · rfl
  · exact h

theorem foldl_setTrue_shape (l : List (ℕ × Cell)) (P : ℕ → Bool)
    (m : List (List Bool)) (ny nx : ℕ) (hm : MaskShape ny nx m) :
    MaskShape ny nx (l.foldl (fun acc kc =>
      if P kc.1 then mset acc kc.2.2.1 kc.2.2.2 true else acc) m) := by
  induction l generalizing m with
  | nil => exact hm
  | cons kc rest IH =>
    rw [List.foldl_cons]
    refine IH _ ?_
    split_ifs
    · exact maskShape_mset _ _ _ _ _ _ hm
    · exact hm

theorem foldl_setTrue_elim (l : List (ℕ × Cell)) (P : ℕ → Bool)
    (m : List (List Bool)) (x y : ℕ)
    (h : mget (l.foldl (fun acc kc =>
      if P kc.1 then mset acc kc.2.2.1 kc.2.2.2 true else acc) m) x y = true) :
    mget m x y = true ∨
      ∃ kc ∈ l, P kc.1 = true ∧ kc.2.2.1 = x ∧ kc.2.2.2 = y := by
  induction l generalizing m with
  | nil => exact Or.inl h
  | cons kc rest IH =>
    rw [List.foldl_cons] at h
    rcases IH _ h with hm | ⟨d, hd, hres⟩
    · by_cases hP : P kc.1 = true
      · rw [if_pos hP, mget_mset] at hm
        split_ifs at hm with hc
        · exact Or.inr ⟨kc, List.mem_cons_self _ _, hP, hc.1, hc.2.1⟩
        · exact Or.inl hm
      · rw [if_neg hP] at hm
        exact Or.inl hm
    · exact Or.inr ⟨d, List.mem_cons_of_mem _ hd, hres⟩

theorem foldl_setTrue_intro (l : List (ℕ × Cell)) (P : ℕ → Bool)
    (m : List (List Bool)) (ny nx : ℕ) (hm : MaskShape ny nx m)
    (hgrid : ∀ kc ∈ l, kc.2.2.1 < ny ∧ kc.2.2.2 < nx) (x y : ℕ)
    (h : mget m x y = true ∨
      ∃ kc ∈ l, P kc.1 = true ∧ kc.2.2.1 = x ∧ kc.2.2.2 = y) :
    mget (l.foldl (fun acc kc =>
      if P kc.1 then mset acc kc.2.2.1 kc.2.2.2 true else acc) m) x y = true := by
  induction l generalizing m with
  | nil =>
    rcases h with h | ⟨kc, hkc, _⟩
    · exact h
    · exact absurd hkc (List.not_mem_nil kc)
  | cons kc rest IH =>
    rw [List.foldl_cons]
    have hm' : MaskShape ny nx
        (if P kc.1 then mset m kc.2.2.1 kc.2.2.2 true else m) := by
      split_ifs
      · exact maskShape_mset _ _ _ _ _ _ hm
      · exact hm
    refine IH _ hm' (fun d hd => hgrid d (List.mem_cons_of_mem _ hd)) ?_
    rcases h with h | ⟨d, hd, hP, hx, hy⟩
    · left
      split_ifs
      · exact mget_mset_true_of _ _ _ _ _ h
      · exact h
    · rcases List.mem_cons.mp hd with rfl | hmem
      · left
        rw [if_pos hP, ← hx, ← hy]
        exact mget_mset_self m ny nx d.2.2.1 d.2.2.2 true hm
          (hgrid d (List.mem_cons_self _ _)).1
          (hgrid d (List.mem_cons_self _ _)).2
      · exact Or.inr ⟨d, hmem, hP, hx, hy⟩

theorem gapFillStrip_eq (g : ℕ) (hg : g ≠ 0) (cs : List Cell)
    (m : List (List Bool)) :
    gapFillStrip g cs m =
      cs.enum.foldl
        (fun acc kc =>
          if gapFilled (cs.map fun c => mget m c.2.1 c.2.2) g kc.1 then
            mset acc kc.2.2.1 kc.2.2.2 true
          else acc) m := by
  rw [gapFillStrip, if_neg hg]

theorem gapFillStrip_shape (g : ℕ) (cs : List Cell) (m : List (List Bool))
    (ny nx : ℕ) (hm : MaskShape ny nx m) :
    MaskShape ny nx (gapFillStrip g cs m) := by
  by_cases hg : g = 0
  · rw [gapFillStrip, if_pos hg]
    exact hm
  · rw [gapFillStrip_eq g hg]
    exact foldl_setTrue_shape _ _ _ _ _ hm

theorem getD_map_mget (cs : List Cell) (m : List (List Bool)) (k : ℕ)
    (hk : k < cs.length) :
    (cs.map fun c => mget m c.2.1 c.2.2).getD k false =
      mget m (cs.get ⟨k, hk⟩).2.1 (cs.get ⟨k, hk⟩).2.2 := by
  rw [List.getD_eq_getElem?_getD, List.getElem?_map,
    List.getElem?_eq_getElem hk]
  rfl

theorem gapFillStrip_mono (g : ℕ) (cs : List Cell) (m1 m2 : List (List Bool))
    (ny nx : ℕ) (hm1 : MaskShape ny nx m1) (hm2 : MaskShape ny nx m2)
    (hgrid : ∀ c ∈ cs, c.2.1 < ny ∧ c.2.2 < nx)
    (hsub : ∀ x y, mget m2 x y = true → mget m1 x y = true)
    (x y : ℕ)
    (h : mget (gapFillStrip g cs m2) x y = true) :
    mget (gapFillStrip g cs m1) x y = true := by
  have hgridE : ∀ kc ∈ cs.enum, kc.2.2.1 < ny ∧ kc.2.2.2 < nx := by
    intro kc hkc
    have h2 : kc.2 ∈ cs := by
      have h3 := List.mem_map_of_mem Prod.snd hkc
      rwa [List.enum_map_snd] at h3
    exact hgrid _ h2
  by_cases hg : g = 0
  · rw [gapFillStrip, if_pos hg] at h
    rw [gapFillStrip, if_pos hg]
    exact hsub x y h
  · rw [gapFillStrip_eq g hg] at h
    rw [gapFillStrip_eq g hg]
    have hptw : ∀ k,
        (cs.map fun c => mget m2 c.2.1 c.2.2).getD k false = true →
        (cs.map fun c => mget m1 c.2.1 c.2.2).getD k false = true := by
      intro k hk2
      by_cases hk : k < cs.length
      · rw [getD_map_mget cs m2 k hk] at hk2
        rw [getD_map_mget cs m1 k hk]
        exact hsub _ _ hk2
      · rw [List.getD_eq_getElem?_getD,
          List.getElem?_eq_none (by simpa using not_lt.mp hk)] at hk2
        exact absurd hk2 (by simp)
    have hlen : (cs.map fun c => mget m1 c.2.1 c.2.2).length =
        (cs.map fun c => mget m2 c.2.1 c.2.2).length := by
      simp
    rcases foldl_setTrue_elim cs.enum _ m2 x y h with hm | ⟨kc, hkc, hP, hx, hy⟩
    · exact foldl_setTrue_intro cs.enum _ m1 ny nx hm1 hgridE x y
        (Or.inl (hsub x y hm))
    · have hfill := gapFilled_mono _ _ hlen hptw g kc.1 hP
      exact foldl_setTrue_intro cs.enum _ m1 ny nx hm1 hgridE x y
        (Or.inr ⟨kc, hkc, hfill, hx, hy⟩)

theorem processStrip_upd (p : ScanParams) (t : ℚ) (g : ℕ)
    (m : List (List Bool)) (s : ℤ) :
    processStrip {p with tanAlt := t} g 0 m s =
      (if (stripCells p s).isEmpty then m
       else gapFillStrip g (sortCells (stripCells p s))
         (horizonLoop p.Z t (epsOf p.cellx p.celly)
           ((sortCells (stripCells p s)).headD (0, 0, 0)).1 0
           (sortCells (stripCells p s)) horizonInit m)) := rfl

theorem rawScan_upd (p : ScanParams) (t : ℚ) (g : ℕ) :
    rawScan {p with tanAlt := t} g 0 =
      (intRange (sIdxMin p) (sIdxMax p)).foldl
        (processStrip {p with tanAlt := t} g 0) (mkMask p.ny p.nx) := rfl

theorem computeShadowMask_upd (p : ScanParams) (t : ℚ) (octants : ℕ)
    (edgeBiasPx : ℚ) (gapMax fatKernel : ℕ) :
    computeShadowMask {p with tanAlt := t} octants 0 edgeBiasPx gapMax false
        fatKernel =
      mclose p.ny p.nx (mtab p.ny p.nx fun i j =>
        !p.nd i j && mget (rawScan {p with tanAlt := t} gapMax 0) i j) := rfl

theorem processStrip_shape_upd (p : ScanParams) (t : ℚ) (g : ℕ)
    (m : List (List Bool)) (s : ℤ) (hm : MaskShape p.ny p.nx m) :
    MaskShape p.ny p.nx (processStrip {p with tanAlt := t} g 0 m s) := by
  rw [processStrip_upd]
  by_cases hemp : (stripCells p s).isEmpty
  · rw [if_pos hemp]
    exact hm
  · rw [if_neg hemp]
    exact gapFillStrip_shape _ _ _ _ _
      (horizonLoop_shape _ _ _ _ _ _ _ _ _ hm)

theorem processStrip_mono (p : ScanParams) (t1 t2 : ℚ) (ht : t1 ≤ t2) (g : ℕ)
    (s : ℤ) (m1 m2 : List (List Bool))
    (hm1 : MaskShape p.ny p.nx m1) (hm2 : MaskShape p.ny p.nx m2)
    (hsub : ∀ x y, mget m2 x y = true → mget m1 x y = true)
    (x y : ℕ)
    (h : mget (processStrip {p with tanAlt := t2} g 0 m2 s) x y = true) :
    mget (processStrip {p with tanAlt := t1} g 0 m1 s) x y = true := by
  rw [processStrip_upd] at h
  rw [processStrip_upd]
  by_cases hemp : (stripCells p s).isEmpty
  · rw [if_pos hemp] at h
    rw [if_pos hemp]
    exact hsub x y h
  · rw [if_neg hemp] at h
    rw [if_neg hemp]
    have hperm := sortCells_perm (stripCells p s)
    have hsort := sortCells_sorted_L (stripCells p s)
    have hndup : ((sortCells (stripCells p s)).map fun c => c.2).Nodup :=
      (List.Perm.nodup_iff (hperm.map fun c => c.2)).mpr
        (stripCells_pos_nodup p s)
    have hgrid : ∀ c ∈ sortCells (stripCells p s),
        c.2.1 < p.ny ∧ c.2.2 < p.nx := by
      intro c hc
      have h3 := mem_stripCells (hperm.mem_iff.mp hc)
      exact ⟨h3.1, h3.2.1⟩
    have hL0 := headD_le_of_sorted (sortCells (stripCells p s)) hsort
    refine gapFillStrip_mono g (sortCells (stripCells p s)) _ _ p.ny p.nx
      (horizonLoop_shape _ _ _ _ _ _ _ _ _ hm1)
      (horizonLoop_shape _ _ _ _ _ _ _ _ _ hm2) hgrid ?_ x y h
    intro a b hab
    exact horizonLoop_mono p.Z t1 t2 (epsOf p.cellx p.celly)
      ((sortCells (stripCells p s)).headD (0, 0, 0)).1 horizonInit ht
      (sortCells (stripCells p s)) hsort hL0 m1 m2 p.ny p.nx hm1 hm2 hndup
      hgrid hsub a b hab

theorem foldl_processStrip_mono (p : ScanParams) (t1 t2 : ℚ) (ht : t1 ≤ t2)
    (g : ℕ) (l : List ℤ) (m1 m2 : List (List Bool))
    (hm1 : MaskShape p.ny p.nx m1) (hm2 : MaskShape p.ny p.nx m2)
    (hsub : ∀ x y, mget m2 x y = true → mget m1 x y = true) :
    ∀ x y,
      mget (l.foldl (processStrip {p with tanAlt := t2} g 0) m2) x y = true →
      mget (l.foldl (processStrip {p with tanAlt := t1} g 0) m1) x y = true := by
  induction l generalizing m1 m2 with
  | nil => exact fun x y h => hsub x y h
  | cons s rest IH =>
    intro x y h
    rw [List.foldl_cons] at h ⊢
    exact IH _ _ (processStrip_shape_upd p t1 g m1 s hm1)
      (processStrip_shape_upd p t2 g m2 s hm2)
      (fun a b hab =>
        processStrip_mono p t1 t2 ht g s m1 m2 hm1 hm2 hsub a b hab)
      x y h

theorem mclose_mono (ny nx : ℕ) (m1 m2 : List (List Bool))
    (hsub : ∀ a b, a < ny → b < nx → mget m2 a b = true → mget m1 a b = true)
    (x y : ℕ) (hx : x < ny) (hy : y < nx)
    (h : mget (mclose ny nx m2) x y = true) :
    mget (mclose ny nx m1) x y = true := by
  rw [mget_mclose_true_iff ny nx m2 x y hx hy] at h
  rw [mget_mclose_true_iff ny nx m1 x y hx hy]
  intro a b ha hb hia hjb
  have hd := h a b ha hb hia hjb
  rw [dilateF3_true_iff] at hd ⊢
  obtain ⟨c, d, hc, hd2, hac, hbd, hm⟩ := hd
  exact ⟨c, d, hc, hd2, hac, hbd, hsub c d hc hd2 hm⟩

/-- C6: altitude monotonicity.  For a fixed grid, fixed light direction and
the scanner's own tolerance, raising the sun (a larger `tan_alt`) never adds
a shadowed cell: the final mask at the higher altitude is a pointwise subset
of the mask at the lower altitude, through the horizon sweep, the 1D gap
fill and the 2D closing (unlimited max distance, fat-shadow off). -/
theorem c6_altitude_monotone (p : ScanParams) (t1 t2 : ℚ) (ht : t1 ≤ t2)
    (octants : ℕ) (edgeBiasPx : ℚ) (gapMax fatKernel : ℕ) (x y : ℕ)
    (h : mget (computeShadowMask {p with tanAlt := t2} octants 0 edgeBiasPx
        gapMax false fatKernel) x y = true) :
    mget (computeShadowMask {p with tanAlt := t1} octants 0 edgeBiasPx gapMax
        false fatKernel) x y = true := by
  rw [computeShadowMask_upd] at h
  rw [computeShadowMask_upd]
  by_cases hxy : x < p.ny ∧ y < p.nx
  · refine mclose_mono p.ny p.nx _ _ ?_ x y hxy.1 hxy.2 h
    intro a b ha hb hab
    rw [mget_mtab, if_pos ⟨ha, hb⟩] at hab ⊢
    rw [Bool.and_eq_true] at hab ⊢
    rw [rawScan_upd p t2 gapMax] at hab
    rw [rawScan_upd p t1 gapMax]
    refine ⟨hab.1, ?_⟩
    exact foldl_processStrip_mono p t1 t2 ht gapMax _ _ _
      (maskShape_mkMask _ _) (maskShape_mkMask _ _) (fun u v huv => huv)
      a b hab.2
  · exfalso
    simp only [mclose] at h
    rw [mget_mtab, if_neg hxy] at h
    exact Bool.false_ne_true h

section DecideRatWitness
attribute [local semireducible] Rat.add Rat.sub Rat.mul Rat.inv

set_option maxRecDepth 1000000

/-- C4 witness: the horizon rule applied to a concrete unsorted strip — a
5 m obstacle at `L = 0` and a flat cell at `L = 1` on a 1x2 grid with 1 m
cells: the flat cell (position 1 of the sorted order) is marked shadow. -/
theorem c4_horizon_rule_witness :
    (((sortCells c4wCells).map fun c => c.2).Nodup) ∧
    mget (horizonLoop c4wZ 1 (epsOf 1 1) ((sortCells c4wCells).headD (0, 0, 0)).1
        0 (sortCells c4wCells) horizonInit (mkMask 1 2))
      ((sortCells c4wCells).get ⟨1, by decide⟩).2.1
      ((sortCells c4wCells).get ⟨1, by decide⟩).2.2 = true := by
  refine ⟨by decide, ?_⟩
  rw [(c4_horizon_rule c4wZ 1 1 1 c4wCells (mkMask 1 2) 1 2 ⟨rfl, by decide⟩
    (by decide) (by decide)).2.2 1 (by decide)]
  decide

/-- C2 witness: the amended flat-surface invariant applied to the flat 2x2
grid lit from due west at altitude 45°: all strip gaps are 1 m, far above
`eps / tan = 1e-5`, and the final mask is false (checked at cell (0, 1)). -/
theorem c2_flat_no_selfshadow_witness :
    (0 : ℚ) < c2FlatParams.tanAlt ∧
    (∀ s ∈ intRange (sIdxMin c2FlatParams) (sIdxMax c2FlatParams),
      ∀ c1 ∈ stripCells c2FlatParams s, ∀ c2 ∈ stripCells c2FlatParams s,
        c1.2 ≠ c2.2 →
          epsOf c2FlatParams.cellx c2FlatParams.celly ≤
            c2FlatParams.tanAlt * |c1.1 - c2.1|) ∧
    mget (computeShadowMask c2FlatParams 32 0 (mkRat (-1) 2) 3 false 3) 0 1
      = false := by
  refine ⟨by decide, by decide, ?_⟩
  exact c2_flat_no_selfshadow c2FlatParams 0 32 (mkRat (-1) 2) 3 3
    (fun i j _ _ => rfl) (fun i j => rfl) (by decide) (by decide) (by decide)
    (by decide) (by decide) 0 1

/-- C3 witness: on the nodata-centre grid, heights changed at the nodata
cell leave the mask untouched, and the writer stamps the sentinel there. -/
theorem c3_nodata_contained_witness :
    c3Params.nd 1 1 = true ∧
    writeShadowMask c3Params.Z c3Params.nd (-9999)
      (computeShadowMask c3Params 32 0 (mkRat (-1) 2) 3 false 3) 5 1 1 = -9999 := by
  have h := c3_nodata_contained c3Params c3ZAlt (-9999) 5
    (computeShadowMask c3Params 32 0 (mkRat (-1) 2) 3 false 3) 32 0 (mkRat (-1) 2)
    3 3 false
    (fun i j hnd => by
      rw [c3ZAlt, if_neg (by simpa using of_decide_eq_false hnd)])
  exact ⟨by decide, h.1 1 1 (by decide)⟩

/-- C5 witness: on the flat 2x2 grid lit from the east the column increment
snaps to zero, and cell (0,0) is collected by a strip in the corner range. -/
theorem c5_strip_partition_witness :
    ∃ s : ℤ, sIdxMin c2FlatParams ≤ s ∧ s ≤ sIdxMax c2FlatParams ∧
      ∃ c ∈ stripCells c2FlatParams s, c.2 = (0, 0) :=
  (c5_strip_partition c2FlatParams (Or.inl (by decide)) (by decide) 0 0
    (by decide) (by decide) (by decide)).2.1

/-- C6 witness: the 2x2 flat grid scanned at tangent 1e-6 marks every cell;
the theorem transports the mark at (0,0) down to tangent 0. -/
theorem c6_altitude_monotone_witness :
    mget (computeShadowMask {c2Params with tanAlt := 0} 32 0 (mkRat (-1) 2) 3
      false 3) 0 0 = true :=
  c6_altitude_monotone c2Params 0 (mkRat 1 (10 ^ 6)) (by decide) 32
    (mkRat (-1) 2) 3 3 0 0 (by decide)

end DecideRatWitness

end Windshade
